import Mathlib

/-!
# DeskJarvis orchestration kernel — shallow embedding and verification

This file embeds, in Lean 4, the parts of the DeskJarvis repository that the
frozen claims are about, and settles each claim against the embedding:

* `src/agent/tools/path_validator.py` — `validate_path`;
* `src/agent/tools/key_encryptor.py` — `KeyEncryptor.encrypt` / `decrypt`
  (with Python's `base64.b64decode` lenient mode and UTF-8 modelled
  explicitly);
* `src/agent/memory/structured_memory.py` — `set_preference` /
  `get_preference` over an association-list model of the SQLite `preferences`
  table, with Python's `json.dumps`/`json.loads` modelled explicitly;
* `src/agent/core/intent_router.py` — `detect`, with the numeric embedding /
  cosine-similarity stage (numpy floats) abstracted to rational-valued scores
  supplied as input, and the keyword / path / threshold routing logic
  embedded from the source;
* `src/agent/orchestrator/plan_executor.py` — `_replace_placeholders`,
  `_dispatch_execution`, `_execute_step_with_retry`, `execute_plan`,
  `_register_executors`, `_get_executor_for_step`, with the concrete
  executors (I/O) abstracted to outcome oracles;
* `src/agent/executor/system_tools.py` — `SystemTools.execute_step` type
  dispatch.

Machine-dependent inputs (the SHA-256 digest of the machine id, wall-clock
time, the embedding model) are parameters of the embedded functions; theorems
quantify over them.
-/

namespace DeskJarvis

/-! ## Path validator (`src/agent/tools/path_validator.py`)

A filesystem path is modelled *after resolution* (`Path.resolve`) as the list
of its components: the absolute path `/a/b/c` is `["a","b","c"]` and the root
`/` is `[]`.  `pathlib.Path.relative_to(base)` succeeds on absolute paths
exactly when `base`'s components are a prefix of the path's components, which
is `List.isPrefixOf` here. -/

/-- A resolved absolute path, as its list of components (root = `[]`). -/
abbrev PyPath := List String

/-- The denylist of system directories from `validate_path`
(`forbidden_paths` in the source). -/
def forbiddenPaths : List PyPath :=
  [["System"], ["Library"], ["usr"], ["bin"], ["sbin"], ["etc"], ["var"],
   ["private"]]

/-- `validate_path(file_path, sandbox_path, allow_home)` from
`path_validator.py`, over resolved paths.  Returns the resolved path on
success and the `FileManagerError` message on failure.  The order of checks
mirrors the source: home (when allowed), then sandbox, then the forbidden
denylist, then the root path, then the final rejection. -/
def validate_path (abs_path sandbox_abs home : PyPath) (allow_home : Bool) :
    Except String PyPath :=
  if allow_home && home.isPrefixOf abs_path then
    Except.ok abs_path
  else if sandbox_abs.isPrefixOf abs_path then
    Except.ok abs_path
  else if forbiddenPaths.any (fun f => f.isPrefixOf abs_path) then
    Except.error "[SECURITY_SHIELD] 禁止操作系统关键路径"
  else if abs_path = ([] : PyPath) then
    Except.error "[SECURITY_SHIELD] 禁止操作系统根路径"
  else
    Except.error "[SECURITY_SHIELD] 路径不在允许范围内（必须在用户主目录或沙盒目录内）"

/-- `validate_path` accepts (returns a path) iff the path is under home (when
allowed) or under the sandbox. -/
theorem validate_path_ok_iff (abs_path sandbox_abs home : PyPath)
    (allow_home : Bool) :
    (∃ p, validate_path abs_path sandbox_abs home allow_home = Except.ok p) ↔
      ((allow_home = true ∧ home.isPrefixOf abs_path = true) ∨
        sandbox_abs.isPrefixOf abs_path = true) := by
  unfold validate_path
  constructor
  · intro ⟨p, hp⟩
    by_cases h1 : allow_home && home.isPrefixOf abs_path
    · rcases Bool.and_eq_true_iff.mp h1 with ⟨ha, hb⟩
      exact Or.inl ⟨ha, hb⟩
    · simp only [h1, if_neg, Bool.false_eq_true] at hp
      by_cases h2 : sandbox_abs.isPrefixOf abs_path
      · exact Or.inr h2
      · simp only [h2, Bool.false_eq_true, if_false] at hp
        split at hp <;> simp_all
        split at hp <;> simp_all
  · intro h
    rcases h with ⟨ha, hb⟩ | h2
    · refine ⟨abs_path, ?_⟩
      simp [ha, hb]
    · by_cases h1 : allow_home && home.isPrefixOf abs_path
      · exact ⟨abs_path, by simp [h1]⟩
      · exact ⟨abs_path, by simp [h1, h2]⟩

/-- C6: `validate_path` returns the resolved path exactly for paths inside
the user's home (when `allow_home`) or inside the sandbox; it raises
`FileManagerError` for every other path — in particular for paths under the
denylisted system roots and for the filesystem root `/` (when these are not
inside home or sandbox). -/
theorem C6_validate_path (abs_path sandbox_abs home : PyPath)
    (allow_home : Bool) :
    (validate_path abs_path sandbox_abs home allow_home =
        Except.ok abs_path ↔
      ((allow_home = true ∧ home.isPrefixOf abs_path = true) ∨
        sandbox_abs.isPrefixOf abs_path = true)) ∧
    ((∃ msg, validate_path abs_path sandbox_abs home allow_home =
        Except.error msg) ↔
      ¬((allow_home = true ∧ home.isPrefixOf abs_path = true) ∨
        sandbox_abs.isPrefixOf abs_path = true)) ∧
    (∀ f ∈ forbiddenPaths, f.isPrefixOf abs_path = true →
      ¬((allow_home = true ∧ home.isPrefixOf abs_path = true) ∨
        sandbox_abs.isPrefixOf abs_path = true) →
      validate_path abs_path sandbox_abs home allow_home =
        Except.error "[SECURITY_SHIELD] 禁止操作系统关键路径") ∧
    (abs_path = [] →
      ¬((allow_home = true ∧ home.isPrefixOf abs_path = true) ∨
        sandbox_abs.isPrefixOf abs_path = true) →
      validate_path abs_path sandbox_abs home allow_home =
        Except.error "[SECURITY_SHIELD] 禁止操作系统根路径") := by
  have hin : ∀ p,
      validate_path abs_path sandbox_abs home allow_home = Except.ok p →
      p = abs_path := by
    intro p hp
    unfold validate_path at hp
    split_ifs at hp <;> simp_all
  have hmain := validate_path_ok_iff abs_path sandbox_abs home allow_home
  constructor
  · constructor
    · intro h
      exact hmain.mp ⟨abs_path, h⟩
    · intro h
      obtain ⟨p, hp⟩ := hmain.mpr h
      rw [hin p hp] at hp
      exact hp
  constructor
  · constructor
    · rintro ⟨msg, hmsg⟩ hinside
      obtain ⟨p, hp⟩ := hmain.mpr hinside
      rw [hmsg] at hp
      cases hp
    · intro hout
      rcases hv : validate_path abs_path sandbox_abs home allow_home with
        msg | p
      · exact ⟨msg, rfl⟩
      · exact absurd (hmain.mp ⟨p, hv⟩) hout
  constructor
  · intro f hf hpre hout
    unfold validate_path
    rw [if_neg (by
      intro hand
      rcases Bool.and_eq_true_iff.mp hand with ⟨ha, hb⟩
      exact hout (Or.inl ⟨ha, hb⟩))]
    rw [if_neg (by
      intro hs
      exact hout (Or.inr hs))]
    rw [if_pos (List.any_eq_true.mpr ⟨f, hf, hpre⟩)]
  · intro hroot hout
    unfold validate_path
    rw [if_neg (by
      intro hand
      rcases Bool.and_eq_true_iff.mp hand with ⟨ha, hb⟩
      exact hout (Or.inl ⟨ha, hb⟩))]
    rw [if_neg (by
      intro hs
      exact hout (Or.inr hs))]
    rw [if_neg (by
      subst hroot
      decide)]
    rw [if_pos hroot]

/-- C6 witness: a path under `/System` outside home and sandbox is rejected
with the system-path error, and a path under home is returned as-is. -/
theorem C6_validate_path_witness :
    validate_path ["System", "Library", "CoreServices"]
        ["srv", "jarvis_sandbox"] ["Users", "alice"] true =
      Except.error "[SECURITY_SHIELD] 禁止操作系统关键路径" ∧
    validate_path ["Users", "alice", "notes.txt"]
        ["srv", "jarvis_sandbox"] ["Users", "alice"] true =
      Except.ok ["Users", "alice", "notes.txt"] :=
  ⟨(C6_validate_path ["System", "Library", "CoreServices"]
      ["srv", "jarvis_sandbox"] ["Users", "alice"] true).2.2.1 ["System"]
      (by decide) (by decide) (by decide),
    (C6_validate_path ["Users", "alice", "notes.txt"]
      ["srv", "jarvis_sandbox"] ["Users", "alice"] true).1.mpr
      (Or.inl ⟨rfl, by decide⟩)⟩

/-! ## Key encryptor (`src/agent/tools/key_encryptor.py`)

`KeyEncryptor.encrypt` XORs the UTF-8 bytes of the key with a salt derived
from `hashlib.sha256(machine_id.encode()).digest()` and base64-encodes the
result behind an `ENC:` prefix; `decrypt` inverts this, with
migration fallbacks for plaintext and legacy inputs.  The machine-dependent
32-byte SHA-256 digest is a parameter `digest` of the embedded functions.
Python's `base64.b64decode` (lenient `binascii.a2b_base64`: non-alphabet
characters discarded, `=` closing a quad of ≥ 2 data characters ends the
parse, a trailing partial quad is an error) and strict UTF-8
encoding/decoding are modelled explicitly. -/

/-- Byte strings: lists of naturals (< 256 for real bytes). -/
abbrev Bytes := List Nat

/-- UTF-8 encoding of one code point (Python `str.encode("utf-8")`). -/
def utf8EncodeChar (c : Char) : Bytes :=
  let n := c.toNat
  if n < 0x80 then [n]
  else if n < 0x800 then [0xC0 + n / 64, 0x80 + n % 64]
  else if n < 0x10000 then
    [0xE0 + n / 4096, 0x80 + n / 64 % 64, 0x80 + n % 64]
  else
    [0xF0 + n / 262144, 0x80 + n / 4096 % 64, 0x80 + n / 64 % 64,
     0x80 + n % 64]

/-- UTF-8 encoding of a string. -/
def utf8Encode (s : String) : Bytes :=
  s.data.foldr (fun c acc => utf8EncodeChar c ++ acc) []

/-- Whether a byte is a UTF-8 continuation byte (`0x80–0xBF`). -/
def isCont (b : Nat) : Bool := 0x80 ≤ b && b < 0xC0

/-- Code point of a 2-byte UTF-8 sequence. -/
def cp2 (b b2 : Nat) : Nat := (b - 0xC0) * 64 + (b2 - 0x80)

/-- Code point of a 3-byte UTF-8 sequence. -/
def cp3 (b b2 b3 : Nat) : Nat :=
  (b - 0xE0) * 4096 + (b2 - 0x80) * 64 + (b3 - 0x80)

/-- Code point of a 4-byte UTF-8 sequence. -/
def cp4 (b b2 b3 b4 : Nat) : Nat :=
  (b - 0xF0) * 262144 + (b2 - 0x80) * 4096 + (b3 - 0x80) * 64 + (b4 - 0x80)

/-- One step of strict UTF-8 decoding (Python `bytes.decode("utf-8")`):
the code point led by byte `b` and the remaining bytes, or `none` on an
invalid lead, truncated sequence, bad continuation byte, overlong form,
surrogate, or code point above `0x10FFFF`. -/
def utf8Step (b : Nat) (rest : Bytes) : Option (Nat × Bytes) :=
  if b < 0x80 then some (b, rest)
  else if b < 0xC2 then none
  else if b < 0xE0 then
    match rest with
    | b2 :: rest2 => if isCont b2 = true then some (cp2 b b2, rest2) else none
    | [] => none
  else if b < 0xF0 then
    match rest with
    | b2 :: b3 :: rest3 =>
      if isCont b2 = true ∧ isCont b3 = true ∧ 0x800 ≤ cp3 b b2 b3 ∧
          ¬(0xD800 ≤ cp3 b b2 b3 ∧ cp3 b b2 b3 ≤ 0xDFFF) then
        some (cp3 b b2 b3, rest3)
      else none
    | _ => none
  else if b < 0xF5 then
    match rest with
    | b2 :: b3 :: b4 :: rest4 =>
      if isCont b2 = true ∧ isCont b3 = true ∧ isCont b4 = true ∧
          0x10000 ≤ cp4 b b2 b3 b4 ∧ cp4 b b2 b3 b4 ≤ 0x10FFFF then
        some (cp4 b b2 b3 b4, rest4)
      else none
    | _ => none
  else none

/-- A successful decoding step never lengthens the remaining input. -/
theorem utf8Step_rest_length (b : Nat) (rest : Bytes) (cp : Nat)
    (rest' : Bytes) (h : utf8Step b rest = some (cp, rest')) :
    rest'.length ≤ rest.length := by
  unfold utf8Step at h
  split_ifs at h with h1 h2 h3 h4 h5
  · simp only [Option.some.injEq, Prod.mk.injEq] at h
    rcases h with ⟨rfl, rfl⟩
    exact le_refl _
  · rcases rest with _ | ⟨b2, rest2⟩
    · simp at h
    · dsimp only at h
      split_ifs at h
      · simp only [Option.some.injEq, Prod.mk.injEq] at h
        rcases h with ⟨rfl, rfl⟩
        simp
  · rcases rest with _ | ⟨b2, _ | ⟨b3, rest3⟩⟩
    · simp at h
    · simp at h
    · dsimp only at h
      split_ifs at h
      · simp only [Option.some.injEq, Prod.mk.injEq] at h
        rcases h with ⟨rfl, rfl⟩
        simp
        omega
  · rcases rest with _ | ⟨b2, _ | ⟨b3, _ | ⟨b4, rest4⟩⟩⟩
    · simp at h
    · simp at h
    · simp at h
    · dsimp only at h
      split_ifs at h
      · simp only [Option.some.injEq, Prod.mk.injEq] at h
        rcases h with ⟨rfl, rfl⟩
        simp
        omega

/-- Strict UTF-8 decoding of a whole byte string: repeated `utf8Step`,
`none` as soon as a step fails. -/
def utf8Decode (bs : Bytes) : Option (List Char) :=
  match bs with
  | [] => some []
  | b :: rest =>
    match hstep : utf8Step b rest with
    | none => none
    | some (cp, rest') =>
      (utf8Decode rest').map (fun cs => Char.ofNat cp :: cs)
termination_by bs.length
decreasing_by
  exact Nat.lt_of_le_of_lt (utf8Step_rest_length b rest cp rest' hstep)
    (by simp)

/-- The standard base64 alphabet. -/
def b64Alphabet : List Char :=
  "ABCDEFGHIJKLMNOPQRSTUVWXYZabcdefghijklmnopqrstuvwxyz0123456789+/".data

/-- The base64 character for a 6-bit value. -/
def b64Char (n : Nat) : Char := b64Alphabet.getD n 'A'

/-- The 6-bit value of a base64 alphabet character, `none` for any other
character. -/
def b64Val (c : Char) : Option Nat := b64Alphabet.findIdx? (fun d => d = c)

/-- `base64.b64encode`: bytes to base64 text with `=` padding. -/
def b64EncodeBytes : Bytes → List Char
  | [] => []
  | [a] => [b64Char (a / 4), b64Char (a % 4 * 16), '=', '=']
  | [a, b] =>
    [b64Char (a / 4), b64Char (a % 4 * 16 + b / 16), b64Char (b % 16 * 4), '=']
  | a :: b :: c :: rest =>
    b64Char (a / 4) :: b64Char (a % 4 * 16 + b / 16) ::
      b64Char (b % 16 * 4 + c / 64) :: b64Char (c % 64) :: b64EncodeBytes rest

/-- The bytes of a completed base64 quad `a b c d` of 6-bit values. -/
def quadBytes (a b c d : Nat) : Bytes :=
  [a * 4 + b / 16, b % 16 * 16 + c / 4, c % 4 * 64 + d]

/-- The bytes already determined by a partial final quad (2 or 3 data
characters), as emitted by `binascii.a2b_base64` when padding closes the
quad. -/
def partialQuadBytes : List Nat → Bytes
  | [a, b] => [a * 4 + b / 16]
  | [a, b, c] => [a * 4 + b / 16, b % 16 * 16 + c / 4]
  | _ => []

/-- CPython's lenient `binascii.a2b_base64` (`base64.b64decode` with
`validate=False`): walk the characters with the current partial quad `quad`
and the running pad count `pads`; discard non-alphabet characters; a `=`
with at least two data characters in the quad counts toward padding and,
once the quad is padded to length 4, ends the parse successfully; input
exhausted with a partial quad is an error (`Incorrect padding` /
`number of data characters cannot be 1 more than a multiple of 4`). -/
def a2bBase64 : List Char → List Nat → Nat → Option Bytes
  | [], quad, _ => if quad.length = 0 then some [] else none
  | c :: cs, quad, pads =>
    if c = '=' then
      if 2 ≤ quad.length then
        if 4 ≤ quad.length + (pads + 1) then some (partialQuadBytes quad)
        else a2bBase64 cs quad (pads + 1)
      else a2bBase64 cs quad pads
    else
      match b64Val c with
      | none => a2bBase64 cs quad pads
      | some v =>
        match quad with
        | [a, b, c3] =>
          (a2bBase64 cs [] 0).map (fun tail => quadBytes a b c3 v ++ tail)
        | _ => a2bBase64 cs (quad ++ [v]) 0

/-- Python's `b"…" * k` followed by `[:n]`: the salt-extension expression
`(salt_bytes * ((n // len(salt_bytes)) + 1))[:n]` from the source. -/
def cycleTo (l : Bytes) (n : Nat) : Bytes :=
  (List.flatten (List.replicate (n / l.length + 1) l)).take n

/-- Pointwise XOR of two byte strings, truncating to the shorter
(Python `bytes(a ^ b for a, b in zip(xs, ys))`). -/
def xorBytes (xs ys : Bytes) : Bytes := List.zipWith (fun a b => a ^^^ b) xs ys

/-- The salt actually XORed against `n` bytes, given the truncated digest
`salt0`: the source's `if len(salt_bytes) < len(...)` extension. -/
def saltBytes (salt0 : Bytes) (n : Nat) : Bytes :=
  if salt0.length < n then cycleTo salt0 n else salt0

/-- `KeyEncryptor.encrypt` from `key_encryptor.py`, with the machine's
SHA-256 digest as the `digest` parameter.  Note the source truncates the
digest by the *character* length of the key but extends it by the *byte*
length; this is mirrored exactly. -/
def encrypt (digest : Bytes) (plain_key : String) : String :=
  if plain_key.data = [] then ""
  else
    let keyBytes := utf8Encode plain_key
    let salt := saltBytes (digest.take plain_key.length) keyBytes.length
    "ENC:" ++ String.mk (b64EncodeBytes (xorBytes keyBytes salt))

/-- `encrypted_key[4:]` after a successful `startswith("ENC:")` check:
`some` of the remainder when the string starts with `ENC:`. -/
def stripENC (s : String) : Option String :=
  match s.data with
  | 'E' :: 'N' :: 'C' :: ':' :: rest => some (String.mk rest)
  | _ => none

/-- `KeyEncryptor.decrypt` from `key_encryptor.py`.  The three arms mirror
the source: `ENC:`-prefixed input is base64-decoded, XOR-decoded with the
machine salt and UTF-8-decoded, any failure yielding `""`; input containing
`:` without the prefix is the legacy format whose decode's first
colon-segment is returned, falling back to the input itself on any decode
failure; anything else is plaintext, returned unchanged. -/
def decrypt (digest : Bytes) (encrypted_key : String) : String :=
  if encrypted_key.data = [] then ""
  else
    match stripENC encrypted_key with
    | none =>
      if encrypted_key.data.contains ':' then
        match a2bBase64 encrypted_key.data [] 0 with
        | some bs =>
          match utf8Decode bs with
          | some cs => String.mk (cs.takeWhile (fun c => c ≠ ':'))
          | none => encrypted_key
        | none => encrypted_key
      else encrypted_key
    | some encoded =>
      match a2bBase64 encoded.data [] 0 with
      | none => ""
      | some xorRes =>
        let salt := saltBytes (digest.take xorRes.length) xorRes.length
        match utf8Decode (xorBytes xorRes salt) with
        | some cs => String.mk cs
        | none => ""

/-! ### Correctness lemmas for the byte-level codecs -/

theorem b64Val_b64Char : ∀ v < 64, b64Val (b64Char v) = some v := by decide

theorem b64Char_ne_pad : ∀ v < 64, ¬ b64Char v = '=' := by decide

/-- Feeding one data character into a partial quad of fewer than three
values appends its 6-bit value and resets the pad count. -/
theorem a2b_cons_data (c : Char) (v : Nat) (cs : List Char) (quad : List Nat)
    (pads : Nat) (hne : ¬ c = '=') (hv : b64Val c = some v)
    (hq : quad.length < 3) :
    a2bBase64 (c :: cs) quad pads = a2bBase64 cs (quad ++ [v]) 0 := by
  match quad, hq with
  | [], _ => simp [a2bBase64, hne, hv]
  | [a], _ => simp [a2bBase64, hne, hv]
  | [a, b], _ => simp [a2bBase64, hne, hv]

/-- Feeding one data character into a quad of three values flushes three
bytes. -/
theorem a2b_cons_quad (c : Char) (v : Nat) (cs : List Char) (a b c3 : Nat)
    (pads : Nat) (hne : ¬ c = '=') (hv : b64Val c = some v) :
    a2bBase64 (c :: cs) [a, b, c3] pads =
      (a2bBase64 cs [] 0).map (fun tail => quadBytes a b c3 v ++ tail) := by
  simp [a2bBase64, hne, hv]

/-- A pad character that does not yet complete the quad only bumps the pad
count. -/
theorem a2b_pad_continue (cs : List Char) (quad : List Nat) (pads : Nat)
    (h2 : 2 ≤ quad.length) (h4 : ¬ 4 ≤ quad.length + (pads + 1)) :
    a2bBase64 ('=' :: cs) quad pads = a2bBase64 cs quad (pads + 1) := by
  conv_lhs => unfold a2bBase64
  rw [if_pos rfl, if_pos h2, if_neg h4]

/-- A pad character completing the quad ends the parse with the bytes of the
partial quad. -/
theorem a2b_pad_done (cs : List Char) (quad : List Nat) (pads : Nat)
    (h2 : 2 ≤ quad.length) (h4 : 4 ≤ quad.length + (pads + 1)) :
    a2bBase64 ('=' :: cs) quad pads = some (partialQuadBytes quad) := by
  conv_lhs => unfold a2bBase64
  rw [if_pos rfl, if_pos h2, if_pos h4]

/-- Lenient base64 decoding inverts encoding on real byte strings. -/
theorem a2bBase64_b64Encode :
    ∀ bs : Bytes, (∀ b ∈ bs, b < 256) →
      a2bBase64 (b64EncodeBytes bs) [] 0 = some bs
  | [], _ => rfl
  | [a], h => by
    have ha : a < 256 := h a (by simp)
    rw [show b64EncodeBytes [a] =
      [b64Char (a / 4), b64Char (a % 4 * 16), '=', '='] from rfl]
    rw [a2b_cons_data _ (a / 4) _ _ _
      (b64Char_ne_pad _ (by omega)) (b64Val_b64Char _ (by omega)) (by simp)]
    rw [a2b_cons_data _ (a % 4 * 16) _ _ _
      (b64Char_ne_pad _ (by omega)) (b64Val_b64Char _ (by omega)) (by simp)]
    simp only [List.nil_append, List.cons_append]
    rw [a2b_pad_continue _ _ _ (by simp) (by simp)]
    rw [a2b_pad_done _ _ _ (by simp) (by simp)]
    simp only [partialQuadBytes, Option.some.injEq, List.cons.injEq, and_true]
    omega
  | [a, b], h => by
    have ha : a < 256 := h a (by simp)
    have hb : b < 256 := h b (by simp)
    rw [show b64EncodeBytes [a, b] =
      [b64Char (a / 4), b64Char (a % 4 * 16 + b / 16), b64Char (b % 16 * 4),
       '='] from rfl]
    rw [a2b_cons_data _ (a / 4) _ _ _
      (b64Char_ne_pad _ (by omega)) (b64Val_b64Char _ (by omega)) (by simp)]
    rw [a2b_cons_data _ (a % 4 * 16 + b / 16) _ _ _
      (b64Char_ne_pad _ (by omega)) (b64Val_b64Char _ (by omega)) (by simp)]
    rw [a2b_cons_data _ (b % 16 * 4) _ _ _
      (b64Char_ne_pad _ (by omega)) (b64Val_b64Char _ (by omega)) (by simp)]
    simp only [List.nil_append, List.cons_append]
    rw [a2b_pad_done _ _ _ (by simp) (by simp)]
    simp only [partialQuadBytes, Option.some.injEq, List.cons.injEq, and_true]
    exact ⟨by omega, by omega⟩
  | a :: b :: c :: rest, h => by
    have ha : a < 256 := h a (by simp)
    have hb : b < 256 := h b (by simp)
    have hc : c < 256 := h c (by simp)
    have hrest : ∀ x ∈ rest, x < 256 := fun x hx => h x (by simp [hx])
    rw [show b64EncodeBytes (a :: b :: c :: rest) =
      b64Char (a / 4) :: b64Char (a % 4 * 16 + b / 16) ::
        b64Char (b % 16 * 4 + c / 64) :: b64Char (c % 64) ::
        b64EncodeBytes rest from rfl]
    rw [a2b_cons_data _ (a / 4) _ _ _
      (b64Char_ne_pad _ (by omega)) (b64Val_b64Char _ (by omega)) (by simp)]
    rw [a2b_cons_data _ (a % 4 * 16 + b / 16) _ _ _
      (b64Char_ne_pad _ (by omega)) (b64Val_b64Char _ (by omega)) (by simp)]
    rw [a2b_cons_data _ (b % 16 * 4 + c / 64) _ _ _
      (b64Char_ne_pad _ (by omega)) (b64Val_b64Char _ (by omega)) (by simp)]
    simp only [List.nil_append, List.cons_append]
    rw [a2b_cons_quad _ (c % 64) _ _ _ _ _
      (b64Char_ne_pad _ (by omega)) (b64Val_b64Char _ (by omega))]
    rw [a2bBase64_b64Encode rest hrest]
    have hq : quadBytes (a / 4) (a % 4 * 16 + b / 16) (b % 16 * 4 + c / 64)
        (c % 64) = [a, b, c] := by
      simp only [quadBytes, List.cons.injEq, and_true]
      exact ⟨by omega, by omega, by omega⟩
    rw [hq]
    rfl

/-- Unfolding `utf8Decode` after a successful step. -/
theorem utf8Decode_step_some (b : Nat) (rest : Bytes) (cp : Nat)
    (rest' : Bytes) (h : utf8Step b rest = some (cp, rest')) :
    utf8Decode (b :: rest) =
      (utf8Decode rest').map (fun cs => Char.ofNat cp :: cs) := by
  rw [utf8Decode]
  split
  · next heq => rw [h] at heq; cases heq
  · next cpx restx heq =>
      rw [h] at heq
      injection heq with heq2
      injection heq2 with hcp hrest
      rw [hcp, hrest]

/-- Unfolding `utf8Decode` after a failed step. -/
theorem utf8Decode_step_none (b : Nat) (rest : Bytes)
    (h : utf8Step b rest = none) : utf8Decode (b :: rest) = none := by
  rw [utf8Decode]
  split
  · rfl
  · next cpx restx heq => rw [h] at heq; cases heq

/-- Decoding a UTF-8 byte string headed by an ASCII byte peels it off. -/
theorem utf8Decode_ascii_cons (b : Nat) (hb : b < 128) (rest : Bytes) :
    utf8Decode (b :: rest) =
      (utf8Decode rest).map (fun cs => Char.ofNat b :: cs) := by
  have hs : utf8Step b rest = some (b, rest) := by
    unfold utf8Step
    rw [if_pos (show b < 0x80 from hb)]
  exact utf8Decode_step_some b rest b rest hs

/-- UTF-8 decoding inverts encoding on ASCII character lists. -/
theorem utf8Decode_encode_ascii :
    ∀ cs : List Char, (∀ c ∈ cs, c.toNat < 128) →
      utf8Decode (cs.foldr (fun c acc => utf8EncodeChar c ++ acc) []) =
        some cs
  | [], _ => by
    show utf8Decode [] = some []
    rw [utf8Decode]
  | c :: rest, h => by
    have hc : c.toNat < 128 := h c (by simp)
    have hrest : ∀ x ∈ rest, x.toNat < 128 := fun x hx => h x (by simp [hx])
    have henc : utf8EncodeChar c = [c.toNat] := by
      simp [utf8EncodeChar, hc]
    simp only [List.foldr_cons, henc, List.cons_append, List.nil_append]
    rw [utf8Decode_ascii_cons _ hc, utf8Decode_encode_ascii rest hrest]
    simp [Char.ofNat_toNat]

/-- The UTF-8 encoding of an ASCII character list has one byte per
character, each below 128. -/
theorem utf8Encode_ascii_shape :
    ∀ cs : List Char, (∀ c ∈ cs, c.toNat < 128) →
      (cs.foldr (fun c acc => utf8EncodeChar c ++ acc) []).length = cs.length
      ∧ ∀ b ∈ cs.foldr (fun c acc => utf8EncodeChar c ++ acc) [], b < 256
  | [], _ => ⟨rfl, by simp⟩
  | c :: rest, h => by
    have hc : c.toNat < 128 := h c (by simp)
    have hrest : ∀ x ∈ rest, x.toNat < 128 := fun x hx => h x (by simp [hx])
    have henc : utf8EncodeChar c = [c.toNat] := by simp [utf8EncodeChar, hc]
    obtain ⟨ih1, ih2⟩ := utf8Encode_ascii_shape rest hrest
    constructor
    · simp [henc, ih1]
    · intro b hbmem
      simp only [List.foldr_cons, henc, List.cons_append, List.nil_append,
        List.mem_cons] at hbmem
      rcases hbmem with hbmem | hbmem
      · omega
      · exact ih2 b hbmem

/-- XOR against the same byte string twice is the identity (on the shorter
operand when it is first). -/
theorem xorBytes_cancel :
    ∀ (k s : Bytes), k.length ≤ s.length → xorBytes (xorBytes k s) s = k
  | [], _, _ => rfl
  | a :: k, b :: s, h => by
    simp only [xorBytes, List.zipWith_cons_cons] at *
    rw [Nat.xor_cancel_right]
    have := xorBytes_cancel k s (by simpa using h)
    simpa [xorBytes] using this

/-- Every byte of the extended salt comes from the truncated digest. -/
theorem mem_saltBytes (salt0 : Bytes) (n : Nat) (b : Nat)
    (hb : b ∈ saltBytes salt0 n) : b ∈ salt0 := by
  unfold saltBytes at hb
  split at hb
  · unfold cycleTo at hb
    have hmem := List.mem_of_mem_take hb
    rcases List.mem_flatten.mp hmem with ⟨l, hl, hbl⟩
    rwa [List.eq_of_mem_replicate hl] at hbl
  · exact hb

/-- Cycling a nonempty byte string out to `n` bytes yields exactly `n`
bytes. -/
theorem cycleTo_length (l : Bytes) (n : Nat) (hne : l ≠ []) :
    (cycleTo l n).length = n := by
  have hpos : 0 < l.length := List.length_pos.mpr hne
  have hflat : ((List.replicate (n / l.length + 1) l).map List.length).sum =
      (n / l.length + 1) * l.length := by
    rw [List.map_replicate, List.sum_replicate, smul_eq_mul]
  rw [cycleTo, List.length_take, List.length_flatten, hflat]
  have hmod := Nat.div_add_mod n l.length
  have hmlt : n % l.length < l.length := Nat.mod_lt _ hpos
  have hle : n ≤ (n / l.length + 1) * l.length :=
    calc n = l.length * (n / l.length) + n % l.length :=
        (Nat.div_add_mod n l.length).symm
      _ ≤ l.length * (n / l.length) + l.length := by omega
      _ = (n / l.length + 1) * l.length := by ring
  exact min_eq_left hle

/-- The salt XORed against `n` bytes, built from a 32-byte digest, has
exactly `n` bytes (for `n ≥ 1`). -/
theorem saltBytes_take_length (digest : Bytes) (n : Nat)
    (hd : digest.length = 32) (hn : 0 < n) :
    (saltBytes (digest.take n) n).length = n := by
  have hs0 : (digest.take n).length = min n 32 := by
    rw [List.length_take, hd]
  unfold saltBytes
  split
  · next hlt =>
    apply cycleTo_length
    intro hnil
    rw [hnil] at hs0
    simp at hs0
    omega
  · next hnlt =>
    rw [hs0] at hnlt
    rw [hs0]
    omega

/-- XOR of real bytes yields real bytes. -/
theorem xorBytes_lt :
    ∀ xs ys : Bytes, (∀ a ∈ xs, a < 256) → (∀ b ∈ ys, b < 256) →
      ∀ c ∈ xorBytes xs ys, c < 256
  | [], _, _, _ => by simp [xorBytes]
  | _ :: _, [], _, _ => by simp [xorBytes]
  | x :: xs, y :: ys, hx, hy => by
    intro c hc
    simp only [xorBytes, List.zipWith_cons_cons, List.mem_cons] at hc
    rcases hc with rfl | hc
    · have h1 : x < 2 ^ 8 := by
        have := hx x (by simp)
        omega
      have h2 : y < 2 ^ 8 := by
        have := hy y (by simp)
        omega
      have := Nat.xor_lt_two_pow h1 h2
      omega
    · exact xorBytes_lt xs ys (fun a ha => hx a (by simp [ha]))
        (fun b hb => hy b (by simp [hb])) c hc

/-- Decrypting an encrypted key recovers it, for any 32-byte digest and any
ASCII key. -/
theorem decrypt_encrypt (digest : Bytes) (s : String)
    (hd : digest.length = 32) (hdb : ∀ b ∈ digest, b < 256)
    (hascii : ∀ c ∈ s.data, c.toNat < 128) :
    decrypt digest (encrypt digest s) = s := by
  obtain ⟨sdata⟩ := s
  by_cases hnil : sdata = []
  · subst hnil
    rfl
  · have hascii2 : ∀ c ∈ sdata, c.toNat < 128 := hascii
    obtain ⟨hlen, hbytes⟩ := utf8Encode_ascii_shape sdata hascii2
    have hslen : (String.mk sdata).length = sdata.length := rfl
    have hkey : utf8Encode (String.mk sdata) =
        sdata.foldr (fun c acc => utf8EncodeChar c ++ acc) [] := rfl
    set keyBytes := sdata.foldr (fun c acc => utf8EncodeChar c ++ acc) []
      with hkb
    have hnpos : 0 < sdata.length := List.length_pos.mpr hnil
    set n := sdata.length with hn
    have hklen : keyBytes.length = n := hlen
    set salt := saltBytes (digest.take n) n with hsalt
    have hsaltlen : salt.length = n := saltBytes_take_length digest n hd hnpos
    have hsaltmem : ∀ b ∈ salt, b < 256 := fun b hb =>
      hdb b (List.mem_of_mem_take (mem_saltBytes _ _ _ hb))
    set xorRes := xorBytes keyBytes salt with hxor
    have hxlen : xorRes.length = n := by
      rw [hxor, xorBytes, List.length_zipWith, hklen, hsaltlen]
      exact min_self n
    have hxbytes : ∀ c ∈ xorRes, c < 256 := xorBytes_lt _ _ hbytes hsaltmem
    have henc : encrypt digest (String.mk sdata) =
        "ENC:" ++ String.mk (b64EncodeBytes xorRes) := by
      unfold encrypt
      rw [if_neg (show ¬(String.mk sdata).data = [] from hnil)]
      dsimp only
      rw [show (String.mk sdata).length = n from rfl, hkey, hklen]
    rw [henc]
    have hdata : ("ENC:" ++ String.mk (b64EncodeBytes xorRes)).data =
        'E' :: 'N' :: 'C' :: ':' :: b64EncodeBytes xorRes := by
      rw [String.data_append]
      rfl
    unfold decrypt
    rw [if_neg (by rw [hdata]; exact fun h => List.noConfusion h)]
    have hstrip : stripENC ("ENC:" ++ String.mk (b64EncodeBytes xorRes)) =
        some (String.mk (b64EncodeBytes xorRes)) := by
      unfold stripENC
      rw [hdata]
      rfl
    rw [hstrip]
    dsimp only
    rw [show a2bBase64 (b64EncodeBytes xorRes) [] 0 = some xorRes from
      a2bBase64_b64Encode xorRes hxbytes]
    dsimp only
    rw [hxlen, ← hsalt]
    rw [hxor, xorBytes_cancel keyBytes salt (by rw [hklen, hsaltlen])]
    rw [utf8Decode_encode_ascii sdata hascii2]

/-- `decrypt` on plaintext input (no `ENC:` prefix, no colon) is the
identity. -/
theorem decrypt_plain (digest : Bytes) (s : String)
    (hne : stripENC s = none) (hcolon : s.data.contains ':' = false) :
    decrypt digest s = s := by
  unfold decrypt
  by_cases hnil : s.data = []
  · rw [if_pos hnil]
    obtain ⟨sdata⟩ := s
    have : sdata = [] := hnil
    subst this
    rfl
  · rw [if_neg hnil, hne]
    dsimp only
    rw [if_neg (by rw [hcolon]; exact Bool.false_ne_true)]

/-- `decrypt` on colon-containing input whose lenient base64 decode fails is
the identity. -/
theorem decrypt_legacy_b64_fail (digest : Bytes) (s : String)
    (hne : stripENC s = none) (hcolon : s.data.contains ':' = true)
    (hb : a2bBase64 s.data [] 0 = none) : decrypt digest s = s := by
  have hnil : ¬ s.data = [] := by
    intro h
    rw [h] at hcolon
    cases hcolon
  unfold decrypt
  rw [if_neg hnil, hne]
  dsimp only
  rw [if_pos hcolon, hb]

/-- `decrypt` on colon-containing input that base64-decodes to invalid UTF-8
is the identity. -/
theorem decrypt_legacy_utf8_fail (digest : Bytes) (s : String) (bs : Bytes)
    (hne : stripENC s = none) (hcolon : s.data.contains ':' = true)
    (hb : a2bBase64 s.data [] 0 = some bs) (hu : utf8Decode bs = none) :
    decrypt digest s = s := by
  have hnil : ¬ s.data = [] := by
    intro h
    rw [h] at hcolon
    cases hcolon
  unfold decrypt
  rw [if_neg hnil, hne]
  dsimp only
  rw [if_pos hcolon, hb]
  dsimp only
  rw [hu]

/-- `decrypt` on colon-containing input that decodes (the legacy format)
returns the decoded text's first colon-segment. -/
theorem decrypt_legacy_ok (digest : Bytes) (s : String) (bs : Bytes)
    (cs : List Char) (hne : stripENC s = none)
    (hcolon : s.data.contains ':' = true)
    (hb : a2bBase64 s.data [] 0 = some bs) (hu : utf8Decode bs = some cs) :
    decrypt digest s = String.mk (cs.takeWhile (fun c => c ≠ ':')) := by
  have hnil : ¬ s.data = [] := by
    intro h
    rw [h] at hcolon
    cases hcolon
  unfold decrypt
  rw [if_neg hnil, hne]
  dsimp only
  rw [if_pos hcolon, hb]
  dsimp only
  rw [hu]

/-- C8 (amended): `KeyEncryptor.decrypt ∘ KeyEncryptor.encrypt` is the
identity on printable-ASCII keys for any 32-byte machine digest; `decrypt`
returns a plaintext input (no `ENC:` prefix) unchanged when it contains no
colon, or contains a colon but fails to base64-decode to UTF-8 text;
`decrypt` on a legacy colon-containing input that does decode returns the
decoded text's first colon-segment — not the input itself. -/
theorem C8_keyEncryptor_roundtrip_migration :
    (∀ (digest : Bytes) (s : String), digest.length = 32 →
      (∀ b ∈ digest, b < 256) →
      (∀ c ∈ s.data, 0x20 ≤ c.toNat ∧ c.toNat ≤ 0x7e) →
      decrypt digest (encrypt digest s) = s) ∧
    (∀ (digest : Bytes) (s : String), stripENC s = none →
      s.data.contains ':' = false → decrypt digest s = s) ∧
    (∀ (digest : Bytes) (s : String), stripENC s = none →
      s.data.contains ':' = true → a2bBase64 s.data [] 0 = none →
      decrypt digest s = s) ∧
    (∀ (digest : Bytes) (s : String) (bs : Bytes), stripENC s = none →
      s.data.contains ':' = true → a2bBase64 s.data [] 0 = some bs →
      utf8Decode bs = none → decrypt digest s = s) ∧
    (∀ (digest : Bytes) (s : String) (bs : Bytes) (cs : List Char),
      stripENC s = none → s.data.contains ':' = true →
      a2bBase64 s.data [] 0 = some bs → utf8Decode bs = some cs →
      decrypt digest s = String.mk (cs.takeWhile (fun c => c ≠ ':'))) := by
  refine ⟨?_, decrypt_plain, decrypt_legacy_b64_fail,
    decrypt_legacy_utf8_fail, decrypt_legacy_ok⟩
  intro digest s hd hdb hprint
  exact decrypt_encrypt digest s hd hdb
    (fun c hc => by have := hprint c hc; omega)

/-- C8 witness: the round-trip and plaintext parts at concrete inputs. -/
theorem C8_keyEncryptor_roundtrip_migration_witness :
    decrypt (List.replicate 32 167) (encrypt (List.replicate 32 167)
      "sk-test-123") = "sk-test-123" ∧
    decrypt (List.replicate 32 167) "my plain key" = "my plain key" :=
  ⟨C8_keyEncryptor_roundtrip_migration.1 (List.replicate 32 167)
      "sk-test-123" (by decide) (by decide) (by decide),
    C8_keyEncryptor_roundtrip_migration.2.1 (List.replicate 32 167)
      "my plain key" (by decide) (by decide)⟩

/-- C8 counterexample: on the legacy colon-containing input `"YWJj:ZGVm"`
(which lenient-base64-decodes to `"abcdef"`), `decrypt` returns the decoded
first segment `"abcdef"`, not the input unchanged as the claim states. -/
theorem C8_keyEncryptor_counterexample :
    decrypt (List.replicate 32 167) "YWJj:ZGVm" = "abcdef" ∧
    decrypt (List.replicate 32 167) "YWJj:ZGVm" ≠ "YWJj:ZGVm" := by
  have h := decrypt_legacy_ok (List.replicate 32 167) "YWJj:ZGVm"
    [97, 98, 99, 100, 101, 102] "abcdef".data rfl (by decide) (by decide)
    (utf8Decode_encode_ascii "abcdef".data (by decide))
  refine ⟨h, ?_⟩
  rw [h]
  decide

/-- C10: `decrypt` is total by construction in this embedding (a Lean
function on all of `String`, mirroring the source's catch-all exception
handler), and on any input carrying the `ENC:` prefix whose remainder fails
lenient base64 decoding, or whose XOR-decoded bytes are not valid UTF-8, it
returns the empty string rather than the input. -/
theorem C10_decrypt_corrupt_returns_empty (digest : Bytes)
    (s encoded : String) (henc : stripENC s = some encoded)
    (hbad : a2bBase64 encoded.data [] 0 = none ∨
      ∃ xorRes, a2bBase64 encoded.data [] 0 = some xorRes ∧
        utf8Decode (xorBytes xorRes
          (saltBytes (digest.take xorRes.length) xorRes.length)) = none) :
    decrypt digest s = "" := by
  have hnil : ¬ s.data = [] := by
    intro h
    unfold stripENC at henc
    rw [h] at henc
    cases henc
  unfold decrypt
  rw [if_neg hnil, henc]
  dsimp only
  rcases hbad with hb | ⟨xr, hxr, hu⟩
  · rw [hb]
  · rw [hxr]
    dsimp only
    rw [hu]

/-- C10 witness: a truncated base64 remainder (`"ENC:YQ"`, incorrect
padding) and a well-formed remainder decoding to the invalid UTF-8 byte
`0xFF` (`"ENC:/w=="`, with an all-zero digest) both decrypt to `""`. -/
theorem C10_decrypt_corrupt_returns_empty_witness :
    decrypt (List.replicate 32 0) "ENC:YQ" = "" ∧
    decrypt (List.replicate 32 0) "ENC:/w==" = "" :=
  ⟨C10_decrypt_corrupt_returns_empty (List.replicate 32 0) "ENC:YQ" "YQ"
      rfl (Or.inl (by decide)),
    C10_decrypt_corrupt_returns_empty (List.replicate 32 0) "ENC:/w==" "/w=="
      rfl (Or.inr ⟨[255], by decide, utf8Decode_step_none 255 [] (by decide)⟩)⟩

/-! ## Python `json` (for `structured_memory.py` preferences)

`set_preference` stores `json.dumps(value)` for non-string values and the
raw string for strings; `get_preference` applies `json.loads` to the stored
text and falls back to the raw text on a decode error.  To settle C7 we
model the JSON-representable Python values and Python's `json.dumps`
(default separators `", "`/`": "`, `ensure_ascii=False`) and `json.loads`
exactly.  Floats are carried as their source token (IEEE semantics is
outside the embedding); dictionaries and lists are the mutual inductives
`JMembers`/`JList`.  One modelling boundary: `json.loads` accepts lone
surrogate `\uXXXX` escapes, which no Lean `Char` can carry; the embedded
parser rejects them. -/

mutual
/-- A JSON value as Python's `json` produces it. -/
inductive JVal where
  | null : JVal
  | bool (b : Bool) : JVal
  | int (n : Int) : JVal
  | float (tok : String) : JVal
  | str (s : String) : JVal
  | arr (xs : JList) : JVal
  | obj (kvs : JMembers) : JVal

/-- A list of JSON values (a Python `list`). -/
inductive JList where
  | nil : JList
  | cons (v : JVal) (rest : JList) : JList

/-- Ordered key/value members of a JSON object (a Python `dict`). -/
inductive JMembers where
  | nil : JMembers
  | cons (k : String) (v : JVal) (rest : JMembers) : JMembers
end

/-- Opening brace character. -/
def braceL : Char := Char.ofNat 123

/-- Closing brace character. -/
def braceR : Char := Char.ofNat 125

/-- Lowercase hexadecimal digit (as in Python's `"\\u%04x"`). -/
def hexDigitChar (n : Nat) : Char :=
  if n < 10 then Char.ofNat (48 + n) else Char.ofNat (87 + n)

/-- The decimal digit character for `d < 10`. -/
def digitChar48 (d : Nat) : Char := Char.ofNat (48 + d)

/-- Python `json.dumps` string escaping with `ensure_ascii=False`: escape
`"` and `\\`, shorthand escapes for the five named control characters, and
`\\u00XX` for the remaining control characters. -/
def escapeChar (c : Char) : List Char :=
  if c = '"' then ['\\', '"']
  else if c = '\\' then ['\\', '\\']
  else if c = '\n' then ['\\', 'n']
  else if c = '\r' then ['\\', 'r']
  else if c = '\t' then ['\\', 't']
  else if c.toNat = 8 then ['\\', 'b']
  else if c.toNat = 12 then ['\\', 'f']
  else if c.toNat < 32 then
    ['\\', 'u', '0', '0', hexDigitChar (c.toNat / 16), hexDigitChar (c.toNat % 16)]
  else [c]

/-- Escape a whole character list. -/
def escapeList (cs : List Char) : List Char :=
  cs.foldr (fun c acc => escapeChar c ++ acc) []

/-- Decimal digits of a natural number (Python `str(int)`), most
significant first. -/
def natToDigits (n : Nat) : List Char :=
  if n < 10 then [digitChar48 n]
  else natToDigits (n / 10) ++ [digitChar48 (n % 10)]
termination_by n
decreasing_by exact Nat.div_lt_self (by omega) (by omega)

/-- Decimal rendering of an integer (Python `str(int)`). -/
def intDigits : Int → List Char
  | .ofNat m => natToDigits m
  | .negSucc m => '-' :: natToDigits (m + 1)

mutual
/-- Python `json.dumps` with its default separators `", "` and `": "` and
`ensure_ascii=False`, over characters. -/
def dumpsVal : JVal → List Char
  | .null => ['n', 'u', 'l', 'l']
  | .bool false => ['f', 'a', 'l', 's', 'e']
  | .bool true => ['t', 'r', 'u', 'e']
  | .int n => intDigits n
  | .float tok => tok.data
  | .str s => '"' :: (escapeList s.data ++ ['"'])
  | .arr .nil => ['[', ']']
  | .arr (.cons x xs) => '[' :: ((dumpsVal x ++ dumpsArrTail xs) ++ [']'])
  | .obj .nil => [braceL, braceR]
  | .obj (.cons k v kvs) =>
    braceL :: ((dumpsMember k v ++ dumpsObjTail kvs) ++ [braceR])

/-- The `", "`-separated tail of a serialized array. -/
def dumpsArrTail : JList → List Char
  | .nil => []
  | .cons x xs => ',' :: ' ' :: (dumpsVal x ++ dumpsArrTail xs)

/-- One serialized `"key": value` member. -/
def dumpsMember (k : String) (v : JVal) : List Char :=
  '"' :: (escapeList k.data ++ ['"', ':', ' ']) ++ dumpsVal v

/-- The `", "`-separated tail of a serialized object. -/
def dumpsObjTail : JMembers → List Char
  | .nil => []
  | .cons k v kvs => ',' :: ' ' :: (dumpsMember k v ++ dumpsObjTail kvs)
end

/-- JSON whitespace (Python `json`'s `WHITESPACE`: space, tab, LF, CR). -/
def jsonWs (c : Char) : Bool := c = ' ' || c = '\t' || c = '\n' || c = '\r'

/-- Skip JSON whitespace. -/
def skipWs (cs : List Char) : List Char := cs.dropWhile jsonWs

/-- Strip an expected literal character sequence. -/
def litPre : List Char → List Char → Option (List Char)
  | [], cs => some cs
  | p :: ps, c :: cs => if c = p then litPre ps cs else none
  | _ :: _, [] => none

/-- Hexadecimal digit value. -/
def hexVal (c : Char) : Option Nat :=
  if c.isDigit then some (c.toNat - 48)
  else if 'a' ≤ c ∧ c ≤ 'f' then some (c.toNat - 87)
  else if 'A' ≤ c ∧ c ≤ 'F' then some (c.toNat - 55)
  else none

/-- Four hexadecimal digits as one number. -/
def hex4 (a b c d : Char) : Option Nat :=
  match hexVal a, hexVal b, hexVal c, hexVal d with
  | some x, some y, some z, some w => some (x * 4096 + y * 256 + z * 16 + w)
  | _, _, _, _ => none

/-- One scanned token of a JSON string body: its closing quote or one
character. -/
inductive StrTok where
  | done : StrTok
  | chr (c : Char) : StrTok

/-- One step of the JSON string-body scanner (Python `py_scanstring` with
`strict=True`): the closing `"`, a named escape, a `\\uXXXX` escape
(combining surrogate pairs), or a plain character; raw control characters
are rejected.  A *lone* surrogate escape — which Python would keep — has no
Lean `Char`, so the embedded scanner rejects it. -/
def strStep : List Char → Option (StrTok × List Char)
  | [] => none
  | c :: r =>
    if c = '"' then some (.done, r)
    else if c = '\\' then
      match r with
      | e :: r2 =>
        if e = '"' then some (.chr '"', r2)
        else if e = '\\' then some (.chr '\\', r2)
        else if e = '/' then some (.chr '/', r2)
        else if e = 'b' then some (.chr (Char.ofNat 8), r2)
        else if e = 'f' then some (.chr (Char.ofNat 12), r2)
        else if e = 'n' then some (.chr '\n', r2)
        else if e = 'r' then some (.chr '\r', r2)
        else if e = 't' then some (.chr '\t', r2)
        else if e = 'u' then
          match r2 with
          | h1 :: h2 :: h3 :: h4 :: r3 =>
            match hex4 h1 h2 h3 h4 with
            | none => none
            | some cp =>
              if 0xD800 ≤ cp ∧ cp ≤ 0xDBFF then
                match r3 with
                | '\\' :: 'u' :: g1 :: g2 :: g3 :: g4 :: r4 =>
                  match hex4 g1 g2 g3 g4 with
                  | none => none
                  | some lo =>
                    if 0xDC00 ≤ lo ∧ lo ≤ 0xDFFF then
                      some (.chr (Char.ofNat
                        (0x10000 + (cp - 0xD800) * 1024 + (lo - 0xDC00))), r4)
                    else none
                | _ => none
              else if 0xDC00 ≤ cp ∧ cp ≤ 0xDFFF then none
              else some (.chr (Char.ofNat cp), r3)
          | _ => none
        else none
      | [] => none
    else if c.toNat < 32 then none
    else some (.chr c, r)
/-- JSON string-body parser: repeated `strStep`, accumulating characters
until the closing quote.  Any fuel above the input length gives the
scanner's exact behaviour, since each step consumes at least one
character; `parseStr` passes the input length. -/
def parseStrAux : Nat → List Char → List Char → Option (List Char × List Char)
  | 0, _, _ => none
  | fuel + 1, cs, acc =>
    match strStep cs with
    | none => none
    | some (.done, r) => some (acc.reverse, r)
    | some (.chr c, r) => parseStrAux fuel r (c :: acc)

/-- JSON string parser (after the opening quote). -/
def parseStr (cs : List Char) : Option (String × List Char) :=
  (parseStrAux (cs.length + 1) cs []).map (fun p => (String.mk p.1, p.2))

/-- Numeric digit value of a digit character. -/
def digitVal (c : Char) : Nat := c.toNat - 48

/-- Natural number denoted by a digit string. -/
def natFromDigits (ds : List Char) : Nat :=
  ds.foldl (fun acc c => acc * 10 + digitVal c) 0

/-- The integer part of a JSON number, per the grammar `0 | [1-9][0-9]*`
(the regex alternation takes the bare `0` branch first, exactly as Python's
`NUMBER_RE`). -/
def parseIntPart : List Char → Option (List Char × List Char)
  | c :: r =>
    if c = '0' then some (['0'], r)
    else if c.isDigit then
      some (c :: r.takeWhile Char.isDigit, r.dropWhile Char.isDigit)
    else none
  | [] => none

/-- The optional fraction group `\\.\\d+` of a JSON number. -/
def parseFrac (cs : List Char) : List Char × List Char :=
  match cs with
  | '.' :: r =>
    match r.takeWhile Char.isDigit with
    | [] => ([], cs)
    | ds => ('.' :: ds, r.dropWhile Char.isDigit)
  | _ => ([], cs)

/-- The optional exponent group `[eE][-+]?\\d+` of a JSON number. -/
def parseExp (cs : List Char) : List Char × List Char :=
  match cs with
  | c :: r =>
    if c = 'e' ∨ c = 'E' then
      match r with
      | s :: r2 =>
        if s = '+' ∨ s = '-' then
          match r2.takeWhile Char.isDigit with
          | [] => ([], cs)
          | ds => (c :: s :: ds, r2.dropWhile Char.isDigit)
        else
          match r.takeWhile Char.isDigit with
          | [] => ([], cs)
          | ds => (c :: ds, r.dropWhile Char.isDigit)
      | [] => ([], cs)
    else ([], cs)
  | [] => ([], cs)

/-- The optional leading minus sign of a JSON number. -/
def parseNumSign : List Char → Bool × List Char
  | '-' :: r => (true, r)
  | cs => (false, cs)

/-- JSON number parser (Python's `NUMBER_RE` match plus `int`/`float`
construction): an integer when no fraction or exponent group matched, else
a float carried as its token. -/
def parseNum (cs : List Char) : Option (JVal × List Char) :=
  match parseNumSign cs with
  | (neg, cs1) =>
    match parseIntPart cs1 with
    | none => none
    | some (ds, r) =>
      match parseFrac r with
      | (fr, r2) =>
        match parseExp r2 with
        | (ex, r3) =>
          if fr = [] ∧ ex = [] then
            some (.int (if neg then -(Int.ofNat (natFromDigits ds))
              else Int.ofNat (natFromDigits ds)), r3)
          else
            some (.float (String.mk ((if neg then ['-'] else []) ++ ds ++
              fr ++ ex)), r3)

/-- Look up a key among object members. -/
def lookupJM : JMembers → String → Option JVal
  | .nil, _ => none
  | .cons k0 v0 rest, k => if k0 = k then some v0 else lookupJM rest k

/-- Remove the first member with the given key. -/
def eraseJM : JMembers → String → JMembers
  | .nil, _ => .nil
  | .cons k0 v0 rest, k =>
    if k0 = k then rest else JMembers.cons k0 v0 (eraseJM rest k)

/-- Combine a leading pair with the members built from the later pairs,
with Python `dict` duplicate-key semantics (first occurrence keeps the
position, the last occurrence's value wins). -/
def objCombine (k : String) (v : JVal) (tail : JMembers) : JMembers :=
  match lookupJM tail k with
  | some v2 => JMembers.cons k v2 (eraseJM tail k)
  | none => JMembers.cons k v tail

mutual
/-- Python `json.loads` value scanner, with fuel (any fuel above the
input's nesting depth gives the scanner's exact behaviour; `loads` passes
the input length). -/
def parseVal : Nat → List Char → Option (JVal × List Char)
  | 0, _ => none
  | fuel + 1, cs =>
    match skipWs cs with
    | [] => none
    | c :: r =>
      if c = 't' then
        (litPre ['r', 'u', 'e'] r).map (fun r2 => (JVal.bool true, r2))
      else if c = 'f' then
        (litPre ['a', 'l', 's', 'e'] r).map (fun r2 => (JVal.bool false, r2))
      else if c = 'n' then
        (litPre ['u', 'l', 'l'] r).map (fun r2 => (JVal.null, r2))
      else if c = 'N' then
        (litPre ['a', 'N'] r).map (fun r2 => (JVal.float "NaN", r2))
      else if c = 'I' then
        (litPre ['n', 'f', 'i', 'n', 'i', 't', 'y'] r).map
          (fun r2 => (JVal.float "Infinity", r2))
      else if c = '"' then
        (parseStr r).map (fun p => (JVal.str p.1, p.2))
      else if c = '[' then
        match skipWs r with
        | ']' :: r2 => some (JVal.arr .nil, r2)
        | _ => (parseElems fuel r).map (fun p => (JVal.arr p.1, p.2))
      else if c = braceL then
        match skipWs r with
        | c2 :: r2 =>
          if c2 = braceR then some (JVal.obj .nil, r2)
          else (parseMembers fuel r).map (fun p => (JVal.obj p.1, p.2))
        | [] => none
      else if c = '-' then
        match r with
        | 'I' :: r2 =>
          (litPre ['n', 'f', 'i', 'n', 'i', 't', 'y'] r2).map
            (fun r3 => (JVal.float "-Infinity", r3))
        | _ => parseNum (c :: r)
      else if c.isDigit then parseNum (c :: r)
      else none

/-- Array elements: `value (ws , value)* ws ]`. -/
def parseElems : Nat → List Char → Option (JList × List Char)
  | 0, _ => none
  | fuel + 1, cs =>
    match parseVal fuel cs with
    | none => none
    | some (v, r) =>
      match skipWs r with
      | c :: r2 =>
        if c = ',' then
          (parseElems fuel r2).map (fun p => (JList.cons v p.1, p.2))
        else if c = ']' then some (JList.cons v .nil, r2)
        else none
      | [] => none

/-- Object members: `ws "key" ws : value (ws , members | ws })`, combined
with Python `dict`'s first-position/last-value duplicate handling. -/
def parseMembers : Nat → List Char → Option (JMembers × List Char)
  | 0, _ => none
  | fuel + 1, cs =>
    match skipWs cs with
    | '"' :: r =>
      match parseStr r with
      | none => none
      | some (k, r2) =>
        match skipWs r2 with
        | ':' :: r3 =>
          match parseVal fuel r3 with
          | none => none
          | some (v, r4) =>
            match skipWs r4 with
            | c :: r5 =>
              if c = ',' then
                (parseMembers fuel r5).map
                  (fun p => (objCombine k v p.1, p.2))
              else if c = braceR then some (JMembers.cons k v .nil, r5)
              else none
            | [] => none
        | _ => none
    | _ => none
end

/-- Python `json.loads`: scan one value, then require only whitespace to
remain (`Extra data` otherwise). -/
def loads (s : String) : Option JVal :=
  match parseVal (s.data.length + 1) s.data with
  | none => none
  | some (v, rest) => if skipWs rest = [] then some v else none

/-- The keys of object members, in order. -/
def keysJM : JMembers → List String
  | .nil => []
  | .cons k _ rest => k :: keysJM rest

mutual
/-- Whether a `JVal` denotes a JSON-representable Python value: no float
subterm (IEEE semantics is outside the embedding) and no duplicate keys in
any object (Python `dict`s cannot have them). -/
def pyRep : JVal → Bool
  | .null => true
  | .bool _ => true
  | .int _ => true
  | .float _ => false
  | .str _ => true
  | .arr xs => pyRepList xs
  | .obj kvs => pyRepMembers kvs && decide (keysJM kvs).Nodup

/-- `pyRep` on every element. -/
def pyRepList : JList → Bool
  | .nil => true
  | .cons v rest => pyRep v && pyRepList rest

/-- `pyRep` on every member value. -/
def pyRepMembers : JMembers → Bool
  | .nil => true
  | .cons _ v rest => pyRep v && pyRepMembers rest
end

/-- The characters that may legally follow a serialized number inside a
`dumps` output: end of input, `,`, `]` or `}`. -/
def numSafe (cs : List Char) : Bool :=
  match cs with
  | [] => true
  | c :: _ => c = ',' || c = ']' || c = braceR

/-! ### Scanner lemmas -/

/-- `skipWs` is the identity on input with a non-whitespace head. -/
theorem skipWs_cons_nws (c : Char) (r : List Char) (h : jsonWs c = false) :
    skipWs (c :: r) = c :: r := by
  simp [skipWs, List.dropWhile_cons, h]

/-- `skipWs` discards an all-whitespace block. -/
theorem skipWs_ws_append :
    ∀ pre X, (∀ c ∈ pre, jsonWs c = true) → skipWs (pre ++ X) = skipWs X
  | [], _, _ => by simp
  | c :: pre, X, h => by
    have hc : jsonWs c = true := h c (by simp)
    simp only [List.cons_append, skipWs, List.dropWhile_cons, hc, if_true]
    exact skipWs_ws_append pre X (fun c hc => h c (by simp [hc]))

/-- `parseVal` ignores leading whitespace. -/
theorem parseVal_ws_drop (fuel : Nat) (pre X : List Char)
    (h : ∀ c ∈ pre, jsonWs c = true) :
    parseVal fuel (pre ++ X) = parseVal fuel X := by
  match fuel with
  | 0 => rfl
  | f + 1 =>
    rw [parseVal, parseVal, skipWs_ws_append pre X h]

/-- `litPre` strips exactly the expected literal. -/
theorem litPre_append : ∀ p rest, litPre p (p ++ rest) = some rest
  | [], _ => rfl
  | c :: p, rest => by
    simp only [List.cons_append, litPre, if_pos rfl]
    exact litPre_append p rest

/-- Facts about decimal digit characters needed to drive the scanner. -/
theorem digitChar48_props : ∀ d < 10,
    jsonWs (digitChar48 d) = false ∧ (digitChar48 d).isDigit = true ∧
    digitChar48 d ≠ 't' ∧ digitChar48 d ≠ 'f' ∧ digitChar48 d ≠ 'n' ∧
    digitChar48 d ≠ 'N' ∧ digitChar48 d ≠ 'I' ∧ digitChar48 d ≠ '"' ∧
    digitChar48 d ≠ '[' ∧ digitChar48 d ≠ braceL ∧ digitChar48 d ≠ '-' ∧
    digitChar48 d ≠ ']' ∧ digitChar48 d ≠ braceR ∧ digitChar48 d ≠ ',' ∧
    (digitChar48 d = '0' ↔ d = 0) ∧ digitVal (digitChar48 d) = d := by
  decide

/-- Every character of `natToDigits n` is a decimal digit. -/
theorem natToDigits_all_digits (n : Nat) :
    ∀ c ∈ natToDigits n, c.isDigit = true := by
  induction n using Nat.strong_induction_on with
  | _ n ih =>
    rw [natToDigits]
    split
    · next h =>
      intro c hc
      simp only [List.mem_singleton] at hc
      subst hc
      exact (digitChar48_props n h).2.1
    · next h =>
      intro c hc
      rw [List.mem_append] at hc
      rcases hc with hc | hc
      · exact ih (n / 10) (Nat.div_lt_self (by omega) (by omega)) c hc
      · simp only [List.mem_singleton] at hc
        subst hc
        exact (digitChar48_props (n % 10) (Nat.mod_lt _ (by omega))).2.1

/-- `natToDigits` never returns the empty list. -/
theorem natToDigits_ne_nil (n : Nat) : natToDigits n ≠ [] := by
  rw [natToDigits]
  split
  · simp
  · simp

/-- The head of `natToDigits` is a digit character whose value is zero only
for the number zero. -/
theorem natToDigits_head (n : Nat) :
    ∃ d t, natToDigits n = digitChar48 d :: t ∧ d < 10 ∧ (d = 0 → n = 0) := by
  induction n using Nat.strong_induction_on with
  | _ n ih =>
    rw [natToDigits]
    split
    · next h =>
      exact ⟨n, [], rfl, h, fun h0 => h0⟩
    · next h =>
      obtain ⟨d, t, hdt, hd10, hd0⟩ :=
        ih (n / 10) (Nat.div_lt_self (by omega) (by omega))
      refine ⟨d, t ++ [digitChar48 (n % 10)], ?_, hd10, ?_⟩
      · rw [hdt]
        rfl
      · intro h0
        have := hd0 h0
        omega

/-- Reading back the digits of `n` yields `n`. -/
theorem natFromDigits_natToDigits (n : Nat) :
    natFromDigits (natToDigits n) = n := by
  induction n using Nat.strong_induction_on with
  | _ n ih =>
    rw [natToDigits]
    split
    · next h =>
      simp only [natFromDigits, List.foldl_cons, List.foldl_nil]
      rw [(digitChar48_props n h).2.2.2.2.2.2.2.2.2.2.2.2.2.2.2]
      omega
    · next h =>
      have ihd := ih (n / 10) (Nat.div_lt_self (by omega) (by omega))
      unfold natFromDigits
      rw [List.foldl_append]
      unfold natFromDigits at ihd
      rw [ihd]
      simp only [List.foldl_cons, List.foldl_nil]
      rw [(digitChar48_props (n % 10) (Nat.mod_lt _ (by omega))).2.2.2.2.2.2.2.2.2.2.2.2.2.2.2]
      omega

/-- `takeWhile`/`dropWhile` over an all-digit block followed by a non-digit
head split exactly at the block boundary. -/
theorem digits_span :
    ∀ ds rest, (∀ c ∈ ds, c.isDigit = true) →
      (rest = [] ∨ ∃ c r, rest = c :: r ∧ c.isDigit = false) →
      (ds ++ rest).takeWhile Char.isDigit = ds ∧
        (ds ++ rest).dropWhile Char.isDigit = rest
  | [], rest, _, hrest => by
    rcases hrest with rfl | ⟨c, r, rfl, hc⟩
    · simp
    · simp [List.takeWhile_cons, List.dropWhile_cons, hc]
  | d :: ds, rest, hds, hrest => by
    have hd : d.isDigit = true := hds d (by simp)
    obtain ⟨ih1, ih2⟩ := digits_span ds rest
      (fun c hc => hds c (by simp [hc])) hrest
    simp [List.takeWhile_cons, List.dropWhile_cons, hd, ih1, ih2]

/-- A `numSafe` remainder has a non-digit, non-fraction, non-exponent,
non-whitespace head (or is empty). -/
theorem numSafe_head (rest : List Char) (h : numSafe rest = true) :
    rest = [] ∨ ∃ c r, rest = c :: r ∧ c.isDigit = false ∧ c ≠ '.' ∧
      c ≠ 'e' ∧ c ≠ 'E' ∧ c ≠ 'I' := by
  match rest with
  | [] => exact Or.inl rfl
  | c :: r =>
    refine Or.inr ⟨c, r, rfl, ?_⟩
    unfold numSafe at h
    rcases Bool.or_eq_true_iff.mp h with h1 | h2
    · rcases Bool.or_eq_true_iff.mp h1 with ha | hb
      · rw [of_decide_eq_true ha]
        decide
      · rw [of_decide_eq_true hb]
        decide
    · rw [of_decide_eq_true h2]
      decide

/-- Hexadecimal digits read back their value. -/
theorem hexVal_hexDigitChar : ∀ n < 16, hexVal (hexDigitChar n) = some n := by
  decide

/-- Scanning the escape of any character yields exactly that character. -/
theorem strStep_escape (c : Char) (X : List Char) :
    strStep (escapeChar c ++ X) = some (StrTok.chr c, X) := by
  by_cases h1 : c = '"'
  · subst h1
    simp [escapeChar, strStep]
  by_cases h2 : c = '\\'
  · subst h2
    simp [escapeChar, strStep]
  by_cases h3 : c = '\n'
  · subst h3
    simp [escapeChar, strStep]
  by_cases h4 : c = '\r'
  · subst h4
    simp [escapeChar, strStep]
  by_cases h5 : c = '\t'
  · subst h5
    simp [escapeChar, strStep]
  by_cases h6 : c.toNat = 8
  · have hc : c = Char.ofNat 8 := by
      rw [← h6, Char.ofNat_toNat]
    rw [show escapeChar c = ['\\', 'b'] from by
      simp [escapeChar, h1, h2, h3, h4, h5, h6]]
    rw [hc]
    simp [strStep]
  by_cases h7 : c.toNat = 12
  · have hc : c = Char.ofNat 12 := by
      rw [← h7, Char.ofNat_toNat]
    rw [show escapeChar c = ['\\', 'f'] from by
      simp [escapeChar, h1, h2, h3, h4, h5, h6, h7]]
    rw [hc]
    simp [strStep]
  by_cases h8 : c.toNat < 32
  · rw [show escapeChar c = ['\\', 'u', '0', '0', hexDigitChar (c.toNat / 16),
      hexDigitChar (c.toNat % 16)] from by
      simp [escapeChar, h1, h2, h3, h4, h5, h6, h7, h8]]
    have hdiv : c.toNat / 16 < 16 := by omega
    have hmod : c.toNat % 16 < 16 := by omega
    simp only [List.cons_append, List.nil_append]
    have hu : ∀ a b cc d : Char, ∀ Y : List Char,
        strStep ('\\' :: 'u' :: a :: b :: cc :: d :: Y) =
          match hex4 a b cc d with
          | none => none
          | some cp =>
            if 0xD800 ≤ cp ∧ cp ≤ 0xDBFF then
              match Y with
              | '\\' :: 'u' :: g1 :: g2 :: g3 :: g4 :: r4 =>
                match hex4 g1 g2 g3 g4 with
                | none => none
                | some lo =>
                  if 0xDC00 ≤ lo ∧ lo ≤ 0xDFFF then
                    some (StrTok.chr (Char.ofNat
                      (0x10000 + (cp - 0xD800) * 1024 + (lo - 0xDC00))), r4)
                  else none
              | _ => none
            else if 0xDC00 ≤ cp ∧ cp ≤ 0xDFFF then none
            else some (StrTok.chr (Char.ofNat cp), Y) := by
      intro a b cc d Y
      simp [strStep]
    rw [hu]
    rw [show hex4 '0' '0' (hexDigitChar (c.toNat / 16))
        (hexDigitChar (c.toNat % 16)) = some (c.toNat / 16 * 16 +
          c.toNat % 16) from by
      unfold hex4
      rw [show hexVal '0' = some 0 from by decide,
        hexVal_hexDigitChar _ hdiv, hexVal_hexDigitChar _ hmod]
      norm_num]
    dsimp only
    rw [if_neg (by omega), if_neg (by omega)]
    have : c.toNat / 16 * 16 + c.toNat % 16 = c.toNat := by omega
    rw [this, Char.ofNat_toNat]
  · rw [show escapeChar c = [c] from by
      simp [escapeChar, h1, h2, h3, h4, h5, h6, h7, h8]]
    simp only [List.cons_append, List.nil_append, strStep]
    rw [if_neg h1, if_neg h2, if_neg (by omega)]

/-- Parsing the escaped serialization of a character list followed by the
closing quote recovers the list. -/
theorem parseStrAux_escape :
    ∀ (cs : List Char) (fuel : Nat) (acc rest : List Char),
      cs.length < fuel →
      parseStrAux fuel (escapeList cs ++ ('"' :: rest)) acc =
        some (acc.reverse ++ cs, rest)
  | [], fuel, acc, rest, hf => by
    match fuel, hf with
    | f + 1, _ =>
      simp only [escapeList, List.foldr_nil, List.nil_append, parseStrAux]
      rw [show strStep ('"' :: rest) = some (StrTok.done, rest) from by
        simp [strStep]]
      simp
  | c :: cs, fuel, acc, rest, hf => by
    match fuel, hf with
    | f + 1, hf =>
      have hstep := strStep_escape c (escapeList cs ++ ('"' :: rest))
      have hel : escapeList (c :: cs) = escapeChar c ++ escapeList cs := by
        simp [escapeList]
      rw [hel, parseStrAux, List.append_assoc, hstep]
      dsimp only
      rw [parseStrAux_escape cs f (c :: acc) rest (by
        simp only [List.length_cons] at hf
        omega)]
      simp

/-- `parseStr` reads back an escaped string body. -/
theorem parseStr_escape (cs rest : List Char) :
    parseStr (escapeList cs ++ ('"' :: rest)) =
      some (String.mk cs, rest) := by
  have hlen : cs.length < (escapeList cs ++ ('"' :: rest)).length + 1 := by
    have : ∀ ds : List Char, ds.length ≤ (escapeList ds).length := by
      intro ds
      induction ds with
      | nil => simp [escapeList]
      | cons d ds ih =>
        have hne : escapeChar d ≠ [] := by
          unfold escapeChar
          split_ifs <;> simp
        have hpos : 0 < (escapeChar d).length := List.length_pos.mpr hne
        simp only [escapeList, List.foldr_cons, List.length_append,
          List.length_cons] at *
        omega
    have h2 := this cs
    simp only [List.length_append, List.length_cons]
    omega
  unfold parseStr
  rw [parseStrAux_escape cs _ [] rest hlen]
  simp

/-- `parseIntPart` consumes exactly a rendered natural number when followed
by a non-digit. -/
theorem parseIntPart_natToDigits (m : Nat) (rest : List Char)
    (hrest : rest = [] ∨ ∃ c r, rest = c :: r ∧ c.isDigit = false) :
    parseIntPart (natToDigits m ++ rest) = some (natToDigits m, rest) := by
  obtain ⟨d, t, hdt, hd10, hd0⟩ := natToDigits_head m
  by_cases hz : d = 0
  · have hm : m = 0 := hd0 hz
    subst hm
    have h0 : natToDigits 0 = ['0'] := by
      rw [natToDigits]
      norm_num
      decide
    rw [h0]
    simp only [List.cons_append, parseIntPart, if_pos rfl]
    simp
  · rw [hdt]
    simp only [List.cons_append, parseIntPart]
    rw [if_neg (fun hEq =>
      hz (((digitChar48_props d hd10).2.2.2.2.2.2.2.2.2.2.2.2.2.2.1).mp hEq))]
    rw [if_pos (digitChar48_props d hd10).2.1]
    have hall : ∀ c ∈ t, c.isDigit = true := fun c hc =>
      natToDigits_all_digits m c (by rw [hdt]; simp [hc])
    obtain ⟨h1, h2⟩ := digits_span t rest hall hrest
    rw [h1, h2]

/-- `parseFrac` matches nothing before a `numSafe` remainder. -/
theorem parseFrac_numSafe (rest : List Char) (h : numSafe rest = true) :
    parseFrac rest = ([], rest) := by
  rcases numSafe_head rest h with rfl | ⟨c, r, rfl, _, hdot, _, _, _⟩
  · rfl
  · unfold parseFrac
    split
    · next heq =>
      rw [List.cons.injEq] at heq
      exact absurd heq.1 hdot
    · rfl

/-- `parseExp` matches nothing before a `numSafe` remainder. -/
theorem parseExp_numSafe (rest : List Char) (h : numSafe rest = true) :
    parseExp rest = ([], rest) := by
  rcases numSafe_head rest h with rfl | ⟨c, r, rfl, _, _, he, hE, _⟩
  · rfl
  · unfold parseExp
    dsimp only
    rw [if_neg (by
      rintro (h1 | h1)
      · exact he h1
      · exact hE h1)]

/-- `parseNumSign` does not fire on a non-minus head. -/
theorem parseNumSign_pos (cs : List Char)
    (h : cs = [] ∨ ∃ c r, cs = c :: r ∧ c ≠ '-') :
    parseNumSign cs = (false, cs) := by
  rcases h with rfl | ⟨c, r, rfl, hc⟩
  · rfl
  · unfold parseNumSign
    split
    · next heq =>
      rw [List.cons.injEq] at heq
      exact absurd heq.1 hc
    · rfl

mutual
/-- Fuel sufficient for `parseVal` on the serialization of a value. -/
def needVal : JVal → Nat
  | .arr xs => 1 + needElems xs
  | .obj kvs => 1 + needMembers kvs
  | _ => 1

/-- Fuel sufficient for `parseElems` on the serialized elements headed by
the list's first entry. -/
def needElems : JList → Nat
  | .nil => 1
  | .cons x xs => 1 + max (needVal x) (needElems xs)

/-- Fuel sufficient for `parseMembers` on the serialized members headed by
the object's first entry. -/
def needMembers : JMembers → Nat
  | .nil => 1
  | .cons _ v ws => 1 + max (needVal v) (needMembers ws)
end

/-- `needVal` is always positive. -/
theorem needVal_pos (v : JVal) : 1 ≤ needVal v := by
  cases v <;> simp [needVal]

/-- `needElems` is always positive. -/
theorem needElems_pos (xs : JList) : 1 ≤ needElems xs := by
  cases xs <;> simp [needElems]

/-- `needMembers` is always positive. -/
theorem needMembers_pos (kvs : JMembers) : 1 ≤ needMembers kvs := by
  cases kvs <;> simp [needMembers]

/-- A key absent from the key list is not found. -/
theorem lookupJM_not_mem :
    ∀ (ms : JMembers) (k : String), k ∉ keysJM ms → lookupJM ms k = none
  | .nil, _, _ => rfl
  | .cons k0 v0 rest, k, h => by
    unfold lookupJM
    rw [if_neg (by
      intro heq
      exact h (by rw [heq]; simp [keysJM]))]
    exact lookupJM_not_mem rest k (fun hm => h (by simp [keysJM, hm]))

/-- The head of a serialized representable value is a non-whitespace
character distinct from the delimiters the scanner branches on. -/
theorem dumpsVal_head (v : JVal) (hrep : pyRep v = true) :
    ∃ c t, dumpsVal v = c :: t ∧ jsonWs c = false ∧ c ≠ ']' ∧ c ≠ braceR := by
  cases v with
  | null =>
    refine ⟨'n', ['u', 'l', 'l'], ?_, by decide, by decide, by decide⟩
    rw [dumpsVal]
  | bool b =>
    cases b
    · refine ⟨'f', ['a', 'l', 's', 'e'], ?_, by decide, by decide, by decide⟩
      rw [dumpsVal]
    · refine ⟨'t', ['r', 'u', 'e'], ?_, by decide, by decide, by decide⟩
      rw [dumpsVal]
  | int n =>
    cases n with
    | ofNat m =>
      obtain ⟨d, t, hdt, hd10, _⟩ := natToDigits_head m
      have hprops := digitChar48_props d hd10
      refine ⟨digitChar48 d, t, ?_, hprops.1,
        hprops.2.2.2.2.2.2.2.2.2.2.2.1, hprops.2.2.2.2.2.2.2.2.2.2.2.2.1⟩
      rw [dumpsVal, intDigits, hdt]
    | negSucc m =>
      refine ⟨'-', natToDigits (m + 1), ?_, by decide, by decide, by decide⟩
      rw [dumpsVal, intDigits]
  | float tok => simp [pyRep] at hrep
  | str s =>
    refine ⟨'"', escapeList s.data ++ ['"'], ?_, by decide, by decide,
      by decide⟩
    rw [dumpsVal]
  | arr xs =>
    cases xs with
    | nil =>
      refine ⟨'[', [']'], ?_, by decide, by decide, by decide⟩
      rw [dumpsVal]
    | cons x xs =>
      refine ⟨'[', (dumpsVal x ++ dumpsArrTail xs) ++ [']'], ?_, by decide,
        by decide, by decide⟩
      rw [dumpsVal]
  | obj kvs =>
    cases kvs with
    | nil =>
      refine ⟨braceL, [braceR], ?_, by decide, by decide, by decide⟩
      rw [dumpsVal]
    | cons k v kvs =>
      refine ⟨braceL, (dumpsMember k v ++ dumpsObjTail kvs) ++ [braceR], ?_,
        by decide, by decide, by decide⟩
      rw [dumpsVal]

mutual
/-- The fuel needed for a serialized value is covered by its length. -/
theorem needVal_le : ∀ v : JVal, pyRep v = true →
    needVal v ≤ (dumpsVal v).length
  | .null, _ => by
    simp only [needVal, dumpsVal]
    simp
  | .bool true, _ => by
    simp only [needVal, dumpsVal]
    simp
  | .bool false, _ => by
    simp only [needVal, dumpsVal]
    simp
  | .int (.ofNat m), _ => by
    simp only [needVal, dumpsVal, intDigits]
    have := List.length_pos.mpr (natToDigits_ne_nil m)
    omega
  | .int (.negSucc m), _ => by
    simp only [needVal, dumpsVal, intDigits]
    simp
  | .float tok, h => by
    simp [pyRep] at h
  | .str s, _ => by
    simp only [needVal, dumpsVal]
    simp
  | .arr .nil, _ => by
    simp only [needVal, dumpsVal, needElems]
    simp
  | .arr (.cons x xs), h => by
    simp only [needVal, dumpsVal]
    have hrep : pyRep x = true ∧ pyRepList xs = true := by
      rw [pyRep, pyRepList] at h
      exact Bool.and_eq_true_iff.mp h
    have hb := needElems_le x xs hrep.1 hrep.2
    simp only [List.length_append, List.length_cons, List.length_nil]
    omega
  | .obj .nil, _ => by
    simp only [needVal, dumpsVal, needMembers]
    simp
  | .obj (.cons k v kvs), h => by
    simp only [needVal, dumpsVal]
    have hrep : pyRep v = true ∧ pyRepMembers kvs = true := by
      rw [pyRep] at h
      rcases Bool.and_eq_true_iff.mp h with ⟨h1, _⟩
      rw [pyRepMembers] at h1
      exact Bool.and_eq_true_iff.mp h1
    have hb := needMembers_le k v kvs hrep.1 hrep.2
    simp only [List.length_append, List.length_cons, List.length_nil]
    omega
termination_by v _ => sizeOf v
decreasing_by all_goals (simp_wf; try omega)

/-- The fuel needed for serialized elements is covered by their length. -/
theorem needElems_le : ∀ (x : JVal) (xs : JList), pyRep x = true →
    pyRepList xs = true →
    needElems (JList.cons x xs) ≤
      (dumpsVal x).length + (dumpsArrTail xs).length + 1
  | x, .nil, hx, _ => by
    simp only [needElems, dumpsArrTail]
    have h1 := needVal_le x hx
    have hp := needVal_pos x
    simp only [List.length_nil]
    omega
  | x, .cons y ys, hx, hxs => by
    simp only [needElems]
    have h1 := needVal_le x hx
    have hrep : pyRep y = true ∧ pyRepList ys = true := by
      rw [pyRepList] at hxs
      exact Bool.and_eq_true_iff.mp hxs
    have h2 := needElems_le y ys hrep.1 hrep.2
    simp only [needElems] at h2
    simp only [dumpsArrTail, List.length_cons, List.length_append,
      List.length_nil]
    omega
termination_by x xs _ _ => sizeOf x + sizeOf xs
decreasing_by all_goals (simp_wf; try omega)

/-- The fuel needed for serialized members is covered by their length. -/
theorem needMembers_le : ∀ (k : String) (v : JVal) (kvs : JMembers),
    pyRep v = true → pyRepMembers kvs = true →
    needMembers (JMembers.cons k v kvs) ≤
      (dumpsMember k v).length + (dumpsObjTail kvs).length + 1
  | k, v, .nil, hv, _ => by
    simp only [needMembers, dumpsObjTail]
    have h1 := needVal_le v hv
    have hp := needVal_pos v
    have hmem : (dumpsMember k v).length =
        (escapeList k.data).length + 4 + (dumpsVal v).length := by
      simp only [dumpsMember, List.length_cons, List.length_append,
        List.length_nil]
    simp only [List.length_nil]
    omega
  | k, v, .cons k2 w ws, hv, hkvs => by
    simp only [needMembers]
    have h1 := needVal_le v hv
    have hmem : (dumpsMember k v).length =
        (escapeList k.data).length + 4 + (dumpsVal v).length := by
      simp only [dumpsMember, List.length_cons, List.length_append,
        List.length_nil]
    have hrep : pyRep w = true ∧ pyRepMembers ws = true := by
      rw [pyRepMembers] at hkvs
      exact Bool.and_eq_true_iff.mp hkvs
    have h2 := needMembers_le k2 w ws hrep.1 hrep.2
    simp only [needMembers] at h2
    simp only [dumpsObjTail, List.length_cons, List.length_append,
      List.length_nil]
    omega
termination_by k v kvs _ _ => sizeOf v + sizeOf kvs
decreasing_by all_goals (simp_wf; try omega)
end

/-- `parseNum` reads back exactly a rendered integer when followed by a
`numSafe` remainder. -/
theorem parseNum_intDigits (n : Int) (rest : List Char)
    (hsafe : numSafe rest = true) :
    parseNum (intDigits n ++ rest) = some (JVal.int n, rest) := by
  have hrest : rest = [] ∨ ∃ c r, rest = c :: r ∧ c.isDigit = false := by
    rcases numSafe_head rest hsafe with h | ⟨c, r, hr, hd, _⟩
    · exact Or.inl h
    · exact Or.inr ⟨c, r, hr, hd⟩
  cases n with
  | ofNat m =>
    obtain ⟨d, t, hdt, hd10, _⟩ := natToDigits_head m
    show parseNum (natToDigits m ++ rest) = _
    unfold parseNum
    rw [parseNumSign_pos (natToDigits m ++ rest) (Or.inr ⟨digitChar48 d,
      t ++ rest, by rw [hdt]; rfl,
      (digitChar48_props d hd10).2.2.2.2.2.2.2.2.2.2.1⟩)]
    dsimp only
    rw [parseIntPart_natToDigits m rest hrest]
    dsimp only
    rw [parseFrac_numSafe rest hsafe]
    dsimp only
    rw [parseExp_numSafe rest hsafe]
    dsimp only
    rw [if_pos ⟨rfl, rfl⟩, natFromDigits_natToDigits]
    rfl
  | negSucc m =>
    show parseNum ('-' :: (natToDigits (m + 1) ++ rest)) = _
    unfold parseNum
    rw [show parseNumSign ('-' :: (natToDigits (m + 1) ++ rest)) =
      (true, natToDigits (m + 1) ++ rest) from rfl]
    dsimp only
    rw [parseIntPart_natToDigits (m + 1) rest hrest]
    dsimp only
    rw [parseFrac_numSafe rest hsafe]
    dsimp only
    rw [parseExp_numSafe rest hsafe]
    dsimp only
    rw [if_pos ⟨rfl, rfl⟩, natFromDigits_natToDigits]
    simp only [if_pos rfl, Option.some.injEq, Prod.mk.injEq, JVal.int.injEq]
    refine ⟨?_, trivial⟩
    simp only [Int.negSucc_eq, Int.ofNat_eq_natCast]
    push_cast
    ring

/-- Combining a fresh key with later members prepends the pair. -/
theorem objCombine_not_mem (k : String) (v : JVal) (tail : JMembers)
    (h : k ∉ keysJM tail) : objCombine k v tail = JMembers.cons k v tail := by
  unfold objCombine
  rw [lookupJM_not_mem tail k h]

/-- The scanner reads back a serialized representable value (resp. a
serialized elements block, a serialized members block), leaving exactly the
remainder, given sufficient fuel. -/
theorem parse_dumps : ∀ fuel : Nat,
    (∀ v rest, pyRep v = true → needVal v ≤ fuel → numSafe rest = true →
      parseVal fuel (dumpsVal v ++ rest) = some (v, rest)) ∧
    (∀ pre x xs rest, (∀ c ∈ pre, jsonWs c = true) → pyRep x = true →
      pyRepList xs = true → needElems (JList.cons x xs) ≤ fuel →
      parseElems fuel
          (pre ++ (dumpsVal x ++ (dumpsArrTail xs ++ (']' :: rest)))) =
        some (JList.cons x xs, rest)) ∧
    (∀ pre k v kvs rest, (∀ c ∈ pre, jsonWs c = true) → pyRep v = true →
      pyRepMembers kvs = true → (k :: keysJM kvs).Nodup →
      needMembers (JMembers.cons k v kvs) ≤ fuel →
      parseMembers fuel
          (pre ++ (dumpsMember k v ++
            (dumpsObjTail kvs ++ (braceR :: rest)))) =
        some (JMembers.cons k v kvs, rest)) := by
  intro fuel
  induction fuel with
  | zero =>
    refine ⟨?_, ?_, ?_⟩
    · intro v rest _ hneed _
      have := needVal_pos v
      omega
    · intro pre x xs rest _ _ _ hneed
      have := needElems_pos (JList.cons x xs)
      omega
    · intro pre k v kvs rest _ _ _ _ hneed
      have := needMembers_pos (JMembers.cons k v kvs)
      omega
  | succ f ih =>
    obtain ⟨ih1, ih2, ih3⟩ := ih
    refine ⟨?_, ?_, ?_⟩
    · intro v rest hrep hneed hsafe
      cases v with
      | null =>
        rw [show dumpsVal JVal.null = ['n', 'u', 'l', 'l'] from by
          rw [dumpsVal]]
        rw [parseVal]
        rw [show (['n', 'u', 'l', 'l'] : List Char) ++ rest =
          'n' :: ('u' :: 'l' :: 'l' :: rest) from rfl]
        rw [skipWs_cons_nws _ _ (by decide)]
        dsimp only
        rw [if_neg (by decide), if_neg (by decide), if_pos rfl]
        rw [show ('u' :: 'l' :: 'l' :: rest : List Char) =
          ['u', 'l', 'l'] ++ rest from rfl]
        rw [litPre_append]
        rfl
      | bool b =>
        cases b with
        | false =>
          rw [show dumpsVal (JVal.bool false) = ['f', 'a', 'l', 's', 'e']
            from by rw [dumpsVal]]
          rw [parseVal]
          rw [show (['f', 'a', 'l', 's', 'e'] : List Char) ++ rest =
            'f' :: ('a' :: 'l' :: 's' :: 'e' :: rest) from rfl]
          rw [skipWs_cons_nws _ _ (by decide)]
          dsimp only
          rw [if_neg (by decide), if_pos rfl]
          rw [show ('a' :: 'l' :: 's' :: 'e' :: rest : List Char) =
            ['a', 'l', 's', 'e'] ++ rest from rfl]
          rw [litPre_append]
          rfl
        | true =>
          rw [show dumpsVal (JVal.bool true) = ['t', 'r', 'u', 'e'] from by
            rw [dumpsVal]]
          rw [parseVal]
          rw [show (['t', 'r', 'u', 'e'] : List Char) ++ rest =
            't' :: ('r' :: 'u' :: 'e' :: rest) from rfl]
          rw [skipWs_cons_nws _ _ (by decide)]
          dsimp only
          rw [if_pos rfl]
          rw [show ('r' :: 'u' :: 'e' :: rest : List Char) =
            ['r', 'u', 'e'] ++ rest from rfl]
          rw [litPre_append]
          rfl
      | int n =>
        cases n with
        | ofNat m =>
          obtain ⟨d, t, hdt, hd10, _⟩ := natToDigits_head m
          have hp := digitChar48_props d hd10
          rw [show dumpsVal (JVal.int (Int.ofNat m)) = natToDigits m from by
            rw [dumpsVal, intDigits]]
          rw [parseVal, hdt]
          rw [show (digitChar48 d :: t) ++ rest =
            digitChar48 d :: (t ++ rest) from rfl]
          rw [skipWs_cons_nws _ _ hp.1]
          dsimp only
          rw [if_neg hp.2.2.1, if_neg hp.2.2.2.1, if_neg hp.2.2.2.2.1,
            if_neg hp.2.2.2.2.2.1, if_neg hp.2.2.2.2.2.2.1,
            if_neg hp.2.2.2.2.2.2.2.1, if_neg hp.2.2.2.2.2.2.2.2.1,
            if_neg hp.2.2.2.2.2.2.2.2.2.1, if_neg hp.2.2.2.2.2.2.2.2.2.2.1,
            if_pos hp.2.1]
          rw [show digitChar48 d :: (t ++ rest) =
            (digitChar48 d :: t) ++ rest from rfl, ← hdt]
          have hpn := parseNum_intDigits (Int.ofNat m) rest hsafe
          rw [show intDigits (Int.ofNat m) = natToDigits m from by
            rw [intDigits]] at hpn
          exact hpn
        | negSucc m =>
          obtain ⟨d, t, hdt, hd10, _⟩ := natToDigits_head (m + 1)
          have hp := digitChar48_props d hd10
          rw [show dumpsVal (JVal.int (Int.negSucc m)) =
            '-' :: natToDigits (m + 1) from by rw [dumpsVal, intDigits]]
          rw [parseVal]
          rw [show ('-' :: natToDigits (m + 1)) ++ rest =
            '-' :: (natToDigits (m + 1) ++ rest) from rfl]
          rw [skipWs_cons_nws _ _ (by decide)]
          dsimp only
          rw [if_neg (by decide), if_neg (by decide), if_neg (by decide),
            if_neg (by decide), if_neg (by decide), if_neg (by decide),
            if_neg (by decide), if_neg (by decide), if_pos rfl]
          rw [hdt]
          rw [show (digitChar48 d :: t) ++ rest =
            digitChar48 d :: (t ++ rest) from rfl]
          split
          · next r2 heq =>
            rw [List.cons.injEq] at heq
            exact absurd heq.1 hp.2.2.2.2.2.2.1
          · rw [show digitChar48 d :: (t ++ rest) =
              (digitChar48 d :: t) ++ rest from rfl, ← hdt]
            have hpn := parseNum_intDigits (Int.negSucc m) rest hsafe
            rw [show intDigits (Int.negSucc m) =
              '-' :: natToDigits (m + 1) from by rw [intDigits]] at hpn
            rw [show ('-' :: natToDigits (m + 1)) ++ rest =
              '-' :: (natToDigits (m + 1) ++ rest) from rfl] at hpn
            exact hpn
      | float tok => simp [pyRep] at hrep
      | str s =>
        rw [show dumpsVal (JVal.str s) = '"' :: (escapeList s.data ++ ['"'])
          from by rw [dumpsVal]]
        rw [parseVal]
        rw [show ('"' :: (escapeList s.data ++ ['"'])) ++ rest =
          '"' :: ((escapeList s.data ++ ['"']) ++ rest) from rfl]
        rw [skipWs_cons_nws _ _ (by decide)]
        dsimp only
        rw [if_neg (by decide), if_neg (by decide), if_neg (by decide),
          if_neg (by decide), if_neg (by decide), if_pos rfl]
        rw [show (escapeList s.data ++ ['"']) ++ rest =
          escapeList s.data ++ ('"' :: rest) from by simp]
        rw [parseStr_escape]
        rfl
      | arr xs =>
        cases xs with
        | nil =>
          rw [show dumpsVal (JVal.arr JList.nil) = ['[', ']'] from by
            rw [dumpsVal]]
          rw [parseVal]
          rw [show (['[', ']'] : List Char) ++ rest = '[' :: (']' :: rest)
            from rfl]
          rw [skipWs_cons_nws _ _ (by decide)]
          dsimp only
          rw [if_neg (by decide), if_neg (by decide), if_neg (by decide),
            if_neg (by decide), if_neg (by decide), if_neg (by decide),
            if_pos rfl]
          rw [skipWs_cons_nws _ _ (by decide)]
          split
          · next r2 heq =>
            rw [List.cons.injEq] at heq
            rw [← heq.2]
          · next h =>
            exact absurd rfl (h rest)
        | cons x xs =>
          have hrepx : pyRep x = true ∧ pyRepList xs = true := by
            rw [pyRep, pyRepList] at hrep
            exact Bool.and_eq_true_iff.mp hrep
          rw [show dumpsVal (JVal.arr (JList.cons x xs)) =
            '[' :: ((dumpsVal x ++ dumpsArrTail xs) ++ [']']) from by
            rw [dumpsVal]]
          rw [parseVal]
          rw [show ('[' :: ((dumpsVal x ++ dumpsArrTail xs) ++ [']'])) ++
              rest = '[' :: (dumpsVal x ++ (dumpsArrTail xs ++
              (']' :: rest))) from by simp]
          rw [skipWs_cons_nws _ _ (by decide)]
          dsimp only
          rw [if_neg (by decide), if_neg (by decide), if_neg (by decide),
            if_neg (by decide), if_neg (by decide), if_neg (by decide),
            if_pos rfl]
          obtain ⟨c, t, hct, hnws, hrb, _⟩ := dumpsVal_head x hrepx.1
          rw [hct]
          rw [show (c :: t) ++ (dumpsArrTail xs ++ (']' :: rest)) =
            c :: (t ++ (dumpsArrTail xs ++ (']' :: rest))) from rfl]
          rw [skipWs_cons_nws _ _ hnws]
          split
          · next r2 heq =>
            rw [List.cons.injEq] at heq
            exact absurd heq.1 hrb
          · rw [show c :: (t ++ (dumpsArrTail xs ++ (']' :: rest))) =
              (c :: t) ++ (dumpsArrTail xs ++ (']' :: rest)) from rfl,
              ← hct]
            have hneed2 : needElems (JList.cons x xs) ≤ f := by
              simp only [needVal] at hneed
              omega
            have hpe := ih2 [] x xs rest (by simp) hrepx.1 hrepx.2 hneed2
            rw [List.nil_append] at hpe
            rw [hpe]
            rfl
      | obj kvs =>
        cases kvs with
        | nil =>
          rw [show dumpsVal (JVal.obj JMembers.nil) = [braceL, braceR]
            from by rw [dumpsVal]]
          rw [parseVal]
          rw [show ([braceL, braceR] : List Char) ++ rest =
            braceL :: (braceR :: rest) from rfl]
          rw [skipWs_cons_nws _ _ (by decide)]
          dsimp only
          rw [if_neg (by decide), if_neg (by decide), if_neg (by decide),
            if_neg (by decide), if_neg (by decide), if_neg (by decide),
            if_neg (by decide), if_pos rfl]
          rw [skipWs_cons_nws _ _ (by decide)]
          dsimp only
          rw [if_pos rfl]
        | cons k v kvs =>
          have h1 : pyRepMembers (JMembers.cons k v kvs) = true ∧
              decide (keysJM (JMembers.cons k v kvs)).Nodup = true := by
            rw [pyRep] at hrep
            exact Bool.and_eq_true_iff.mp hrep
          have hrepv : pyRep v = true ∧ pyRepMembers kvs = true := by
            have h2 := h1.1
            rw [pyRepMembers] at h2
            exact Bool.and_eq_true_iff.mp h2
          have hnd : (k :: keysJM kvs).Nodup := by
            have h3 := of_decide_eq_true h1.2
            rw [keysJM] at h3
            exact h3
          rw [show dumpsVal (JVal.obj (JMembers.cons k v kvs)) =
            braceL :: ((dumpsMember k v ++ dumpsObjTail kvs) ++ [braceR])
            from by rw [dumpsVal]]
          rw [parseVal]
          rw [show (braceL :: ((dumpsMember k v ++ dumpsObjTail kvs) ++
              [braceR])) ++ rest = braceL :: (dumpsMember k v ++
              (dumpsObjTail kvs ++ (braceR :: rest))) from by simp]
          rw [skipWs_cons_nws _ _ (by decide)]
          dsimp only
          rw [if_neg (by decide), if_neg (by decide), if_neg (by decide),
            if_neg (by decide), if_neg (by decide), if_neg (by decide),
            if_neg (by decide), if_pos rfl]
          have hsplit : dumpsMember k v ++ (dumpsObjTail kvs ++
              (braceR :: rest)) = '"' :: (escapeList k.data ++
              ('"' :: (':' :: (' ' :: (dumpsVal v ++
                (dumpsObjTail kvs ++ (braceR :: rest))))))) := by
            rw [dumpsMember]
            simp
          have hpm := ih3 [] k v kvs rest (by simp) hrepv.1 hrepv.2 hnd
            (by simp only [needVal] at hneed; omega)
          rw [List.nil_append] at hpm
          rw [hsplit, skipWs_cons_nws _ _ (by decide)]
          dsimp only
          rw [if_neg (by decide), ← hsplit, hpm]
          rfl
    · intro pre x xs rest hpre hx hxs hneed
      rw [parseElems]
      rw [parseVal_ws_drop f pre _ hpre]
      have hsafe2 : numSafe (dumpsArrTail xs ++ (']' :: rest)) = true := by
        cases xs with
        | nil =>
          rw [show dumpsArrTail JList.nil = [] from by rw [dumpsArrTail]]
          rfl
        | cons y ys =>
          rw [show dumpsArrTail (JList.cons y ys) =
            ',' :: ' ' :: (dumpsVal y ++ dumpsArrTail ys) from by
            rw [dumpsArrTail]]
          rfl
      have hneedx : needVal x ≤ f := by
        rw [needElems] at hneed
        omega
      rw [ih1 x _ hx hneedx hsafe2]
      dsimp only
      cases xs with
      | nil =>
        rw [show dumpsArrTail JList.nil = [] from by rw [dumpsArrTail]]
        rw [List.nil_append]
        rw [skipWs_cons_nws _ _ (by decide)]
        dsimp only
        rw [if_neg (by decide), if_pos rfl]
      | cons y ys =>
        have hrepy : pyRep y = true ∧ pyRepList ys = true := by
          rw [pyRepList] at hxs
          exact Bool.and_eq_true_iff.mp hxs
        have hneedy : needElems (JList.cons y ys) ≤ f := by
          rw [needElems] at hneed
          omega
        rw [show dumpsArrTail (JList.cons y ys) =
          ',' :: ' ' :: (dumpsVal y ++ dumpsArrTail ys) from by
          rw [dumpsArrTail]]
        rw [show (',' :: ' ' :: (dumpsVal y ++ dumpsArrTail ys)) ++
            (']' :: rest) = ',' :: (' ' :: (dumpsVal y ++
            (dumpsArrTail ys ++ (']' :: rest)))) from by simp]
        rw [skipWs_cons_nws _ _ (by decide)]
        dsimp only
        rw [if_pos rfl]
        have hpe := ih2 [' '] y ys rest (by
          intro c hc
          simp only [List.mem_singleton] at hc
          subst hc
          rfl) hrepy.1 hrepy.2 hneedy
        rw [show ([' '] : List Char) ++ (dumpsVal y ++ (dumpsArrTail ys ++
          (']' :: rest))) = ' ' :: (dumpsVal y ++ (dumpsArrTail ys ++
          (']' :: rest))) from rfl] at hpe
        rw [hpe]
        rfl
    · intro pre k v kvs rest hpre hv hkvs hnd hneed
      rw [parseMembers]
      rw [skipWs_ws_append pre _ hpre]
      have hsplit : dumpsMember k v ++ (dumpsObjTail kvs ++
          (braceR :: rest)) = '"' :: (escapeList k.data ++
          ('"' :: (':' :: (' ' :: (dumpsVal v ++
            (dumpsObjTail kvs ++ (braceR :: rest))))))) := by
        rw [dumpsMember]
        simp
      rw [hsplit]
      rw [skipWs_cons_nws _ _ (by decide)]
      split
      · next r heq =>
        rw [List.cons.injEq] at heq
        rw [← heq.2]
        rw [parseStr_escape]
        dsimp only
        rw [skipWs_cons_nws _ _ (by decide)]
        split
        · next r3 heq3 =>
          rw [List.cons.injEq] at heq3
          rw [← heq3.2]
          rw [show (' ' :: (dumpsVal v ++ (dumpsObjTail kvs ++
            (braceR :: rest)))) = [' '] ++ (dumpsVal v ++
            (dumpsObjTail kvs ++ (braceR :: rest))) from rfl]
          rw [parseVal_ws_drop f [' '] _ (by
            intro c hc
            simp only [List.mem_singleton] at hc
            subst hc
            rfl)]
          have hsafe3 : numSafe (dumpsObjTail kvs ++ (braceR :: rest)) =
              true := by
            cases kvs with
            | nil =>
              rw [show dumpsObjTail JMembers.nil = [] from by
                rw [dumpsObjTail]]
              rfl
            | cons k2 w ws =>
              rw [show dumpsObjTail (JMembers.cons k2 w ws) =
                ',' :: ' ' :: (dumpsMember k2 w ++ dumpsObjTail ws) from by
                rw [dumpsObjTail]]
              rfl
          have hneedv : needVal v ≤ f := by
            rw [needMembers] at hneed
            omega
          rw [ih1 v _ hv hneedv hsafe3]
          dsimp only
          cases kvs with
          | nil =>
            rw [show dumpsObjTail JMembers.nil = [] from by
              rw [dumpsObjTail]]
            rw [List.nil_append]
            rw [skipWs_cons_nws _ _ (by decide)]
            dsimp only
            rw [if_neg (by decide), if_pos rfl]
          | cons k2 w ws =>
            have hrepw : pyRep w = true ∧ pyRepMembers ws = true := by
              rw [pyRepMembers] at hkvs
              exact Bool.and_eq_true_iff.mp hkvs
            rw [keysJM] at hnd
            have hkni : k ∉ k2 :: keysJM ws := (List.nodup_cons.mp hnd).1
            have hndw : (k2 :: keysJM ws).Nodup := (List.nodup_cons.mp hnd).2
            have hneedw : needMembers (JMembers.cons k2 w ws) ≤ f := by
              rw [needMembers] at hneed
              omega
            rw [show dumpsObjTail (JMembers.cons k2 w ws) =
              ',' :: ' ' :: (dumpsMember k2 w ++ dumpsObjTail ws) from by
              rw [dumpsObjTail]]
            rw [show (',' :: ' ' :: (dumpsMember k2 w ++ dumpsObjTail ws))
                ++ (braceR :: rest) = ',' :: (' ' :: (dumpsMember k2 w ++
                (dumpsObjTail ws ++ (braceR :: rest)))) from by simp]
            rw [skipWs_cons_nws _ _ (by decide)]
            dsimp only
            rw [if_pos rfl]
            have hpm := ih3 [' '] k2 w ws rest (by
              intro c hc
              simp only [List.mem_singleton] at hc
              subst hc
              rfl) hrepw.1 hrepw.2 hndw hneedw
            rw [show ([' '] : List Char) ++ (dumpsMember k2 w ++
              (dumpsObjTail ws ++ (braceR :: rest))) = ' ' ::
              (dumpsMember k2 w ++ (dumpsObjTail ws ++ (braceR :: rest)))
              from rfl] at hpm
            rw [hpm]
            show some (objCombine (String.mk (String.data k)) v
              (JMembers.cons k2 w ws), rest) = _
            rw [objCombine_not_mem (String.mk (String.data k)) v
              (JMembers.cons k2 w ws) (by rw [keysJM]; exact hkni)]
        · next h =>
          exact absurd rfl (h _)
      · next h =>
        exact absurd rfl (h _)

/-- `loads` inverts `dumps` on every JSON-representable value. -/
theorem loads_dumps (v : JVal) (h : pyRep v = true) :
    loads (String.mk (dumpsVal v)) = some v := by
  unfold loads
  have hfuel : needVal v ≤ (dumpsVal v).length + 1 := by
    have := needVal_le v h
    omega
  have hp := (parse_dumps ((dumpsVal v).length + 1)).1 v [] h hfuel rfl
  rw [List.append_nil] at hp
  rw [show (String.mk (dumpsVal v)).data = dumpsVal v from rfl]
  rw [hp]
  rfl

/-! ## Structured memory preferences (`structured_memory.py`)

`set_preference` stores `json.dumps(value, ensure_ascii=False)` unless the
value is already a `str`, which is stored raw (line 162); the row is
upserted on the key (`ON CONFLICT(key) DO UPDATE`).  `get_preference`
returns `json.loads` of the stored column, falling back to the raw string
on `JSONDecodeError`, and `None` (the default) when the key is absent.
The table is embedded as an association list on the key column. -/

/-- The `preferences` table, restricted to the columns the claims touch:
key to stored value string. -/
abbrev PrefStore := List (String × String)

/-- Row lookup by key (`SELECT value FROM preferences WHERE key = ?`). -/
def storeLookup : PrefStore → String → Option String
  | [], _ => none
  | (k0, v0) :: rest, k => if k0 = k then some v0 else storeLookup rest k

/-- Upsert on the key column (`INSERT ... ON CONFLICT(key) DO UPDATE`). -/
def upsert : PrefStore → String → String → PrefStore
  | [], k, v => [(k, v)]
  | (k0, v0) :: rest, k, v =>
    if k0 = k then (k, v) :: rest else (k0, v0) :: upsert rest k v

/-- The stored column text:
`json.dumps(value, ensure_ascii=False) if not isinstance(value, str) else
value`. -/
def prefEncode : JVal → String
  | .str s => s
  | v => String.mk (dumpsVal v)

/-- `StructuredMemory.set_preference` (the `value` column). -/
def set_preference (store : PrefStore) (key : String) (value : JVal) :
    PrefStore :=
  upsert store key (prefEncode value)

/-- `StructuredMemory.get_preference` with the default `None`: `json.loads`
of the stored text, or the raw text itself when it does not parse. -/
def get_preference (store : PrefStore) (key : String) : Option JVal :=
  match storeLookup store key with
  | none => none
  | some s =>
    match loads s with
    | some j => some j
    | none => some (JVal.str s)

/-- Looking up the upserted key finds the new value. -/
theorem storeLookup_upsert : ∀ (store : PrefStore) (k s : String),
    storeLookup (upsert store k s) k = some s
  | [], k, s => by simp [upsert, storeLookup]
  | (k0, v0) :: rest, k, s => by
    by_cases h : k0 = k
    · subst h
      simp [upsert, storeLookup]
    · simp only [upsert, if_neg h, storeLookup]
      exact storeLookup_upsert rest k s

/-- Upserting one key leaves every other key's lookup unchanged. -/
theorem storeLookup_upsert_ne : ∀ (store : PrefStore) (k k2 s : String),
    k2 ≠ k → storeLookup (upsert store k2 s) k = storeLookup store k
  | [], k, k2, s, h => by simp [upsert, storeLookup, h]
  | (k0, v0) :: rest, k, k2, s, h => by
    by_cases h0 : k0 = k2
    · subst h0
      simp only [upsert, if_pos rfl, storeLookup]
      rw [if_neg h, if_neg h]
    · simp only [upsert, if_neg h0, storeLookup]
      by_cases hk : k0 = k
      · rw [if_pos hk, if_pos hk]
      · rw [if_neg hk, if_neg hk]
        exact storeLookup_upsert_ne rest k k2 s h

/-- On a non-string value, the stored text is the serialization. -/
theorem prefEncode_not_str (v : JVal) (h : ∀ s, v ≠ JVal.str s) :
    prefEncode v = String.mk (dumpsVal v) := by
  cases v
  case str s => exact absurd rfl (h s)
  all_goals rfl

/-- C7 (amended): `set_preference` then `get_preference` returns the set
value for every JSON-representable non-string value and for every string
that does not itself parse as JSON, and setting a different key never
disturbs a stored preference; a string value that parses as JSON is
returned as the parsed value instead of the original string (see the
counterexample). -/
theorem C7_preference_roundtrip :
    (∀ store k v, pyRep v = true → (∀ s, v ≠ JVal.str s) →
      get_preference (set_preference store k v) k = some v) ∧
    (∀ store k s, loads s = none →
      get_preference (set_preference store k (JVal.str s)) k =
        some (JVal.str s)) ∧
    (∀ store k k2 w, k2 ≠ k →
      get_preference (set_preference store k2 w) k =
        get_preference store k) := by
  refine ⟨?_, ?_, ?_⟩
  · intro store k v hrep hns
    unfold get_preference set_preference
    rw [prefEncode_not_str v hns, storeLookup_upsert]
    dsimp only
    rw [loads_dumps v hrep]
  · intro store k s hns
    unfold get_preference set_preference
    rw [storeLookup_upsert]
    dsimp only [prefEncode]
    rw [hns]
  · intro store k k2 w h
    unfold get_preference set_preference
    rw [storeLookup_upsert_ne store k k2 (prefEncode w) h]

/-- C7 counterexample: storing the *string* `"123"` and reading it back
returns the *integer* `123` — `get_preference` cannot tell a stored raw
string that happens to be valid JSON from a serialized value, so the
claimed round-trip fails on such strings. -/
theorem C7_preference_counterexample :
    get_preference (set_preference [] "k" (JVal.str "123")) "k" =
      some (JVal.int 123) ∧ JVal.int 123 ≠ JVal.str "123" := by
  constructor
  · rfl
  · intro h
    injection h

/-- C7 witness: the round-trip at concrete inputs — a non-string value, a
non-JSON string, and persistence under a set to a different key. -/
theorem C7_preference_roundtrip_witness :
    get_preference (set_preference [] "theme" (JVal.int 5)) "theme" =
      some (JVal.int 5) ∧
    get_preference (set_preference [] "mode" (JVal.str "dark")) "mode" =
      some (JVal.str "dark") ∧
    get_preference (set_preference [("b", "x")] "a" (JVal.int 1)) "b" =
      get_preference [("b", "x")] "b" :=
  ⟨C7_preference_roundtrip.1 [] "theme" (JVal.int 5) (by simp [pyRep])
      (fun s h => by injection h),
   C7_preference_roundtrip.2.1 [] "mode" "dark" (by rfl),
   C7_preference_roundtrip.2.2 [("b", "x")] "b" "a" (JVal.int 1)
      (by decide)⟩

/-! ## Placeholder substitution and the dispatch guard (`plan_executor.py`)

`_replace_placeholders` walks the params value; in every string it finds
each regex match of `\x7b\x7bstep(\d+)\.([^\x7d]+)\x7d\x7d`, resolves the
path against `step_results[N-1]["result"]["data"]`, and replaces every
occurrence of the rebuilt placeholder text by `str(value)` — or by the
sentinel `"NULL_ID"` when resolution yields `None` or the step index is
out of range.  `_dispatch_execution` then rejects the step with a
`PlaceholderError` exactly when `check_null_id` finds a string leaf that
*equals* `"NULL_ID"`.  Params and step data are the JSON-ish `JVal`;
`str()` of a container is Python `repr` (the embedding elides `repr`'s
string-escape and quote-choice rules, which no claim touches). -/

/-- The sentinel for unresolved placeholders. -/
def nullId : List Char := ['N', 'U', 'L', 'L', '_', 'I', 'D']

/-- Single-quote character (Python `repr` of strings). -/
def sq : Char := Char.ofNat 39

mutual
/-- Python `repr` of a JSON-ish value. -/
def reprOf : JVal → List Char
  | .null => ['N', 'o', 'n', 'e']
  | .bool true => ['T', 'r', 'u', 'e']
  | .bool false => ['F', 'a', 'l', 's', 'e']
  | .int n => intDigits n
  | .float tok => tok.data
  | .str s => sq :: (s.data ++ [sq])
  | .arr xs => '[' :: (reprList xs ++ [']'])
  | .obj kvs => braceL :: (reprMembers kvs ++ [braceR])

/-- `repr` of list elements, `", "`-separated. -/
def reprList : JList → List Char
  | .nil => []
  | .cons v .nil => reprOf v
  | .cons v rest => reprOf v ++ (',' :: ' ' :: reprList rest)

/-- `repr` of dict members, `", "`-separated. -/
def reprMembers : JMembers → List Char
  | .nil => []
  | .cons k v .nil => (sq :: (k.data ++ [sq])) ++ (':' :: ' ' :: reprOf v)
  | .cons k v rest => (sq :: (k.data ++ [sq])) ++ (':' :: ' ' :: reprOf v)
      ++ (',' :: ' ' :: reprMembers rest)
end

/-- Python `str()`: the raw text for a `str`, `repr` otherwise. -/
def strOf : JVal → List Char
  | .str s => s.data
  | v => reprOf v

/-- A word character (`\w`, restricted to ASCII). -/
def isWordChar (c : Char) : Bool :=
  (decide ('a' ≤ c) && decide (c ≤ 'z')) ||
  (decide ('A' ≤ c) && decide (c ≤ 'Z')) || c.isDigit || decide (c = '_')

/-- `re.match(r'(\w+)\[(\d+)\]', part)`: an anchored prefix match returning
the key and the index (trailing text is ignored, as `re.match` does). -/
def matchIndexPart (part : List Char) : Option (List Char × Nat) :=
  let w := part.takeWhile isWordChar
  match part.dropWhile isWordChar with
  | '[' :: r2 =>
    let ds := r2.takeWhile Char.isDigit
    if w = [] ∨ ds = [] then none
    else
      match r2.dropWhile Char.isDigit with
      | ']' :: _ => some (w, natFromDigits ds)
      | _ => none
  | _ => none

/-- Python `path.split('.')`. -/
def splitDot : List Char → List (List Char)
  | [] => [[]]
  | c :: r =>
    if c = '.' then [] :: splitDot r
    else
      match splitDot r with
      | p :: ps => (c :: p) :: ps
      | [] => [[c]]

/-- Zero-based list indexing with `IndexError` as `none`. -/
def jlistGet : JList → Nat → Option JVal
  | .nil, _ => none
  | .cons v _, 0 => some v
  | .cons _ rest, n + 1 => jlistGet rest n

/-- One `get_deep_value` loop iteration on a non-`None` current value.
`int(key)` on a `\w+` key succeeds only on all-digit text (Python's
underscore digit grouping is elided). -/
def getDeepStep (current : JVal) (part : List Char) : Option JVal :=
  match matchIndexPart part with
  | some (key, idx) =>
    let byKey : Option JVal :=
      match current with
      | .obj kvs => lookupJM kvs (String.mk key)
      | .arr xs =>
        if key.all Char.isDigit then jlistGet xs (natFromDigits key)
        else none
      | _ => none
    match byKey with
    | some (JVal.arr xs) => jlistGet xs idx
    | _ => none
  | none =>
    match current with
    | .obj kvs => lookupJM kvs (String.mk part)
    | .arr xs =>
      if part ≠ [] ∧ part.all Char.isDigit then
        jlistGet xs (natFromDigits part)
      else none
    | _ => none

/-- `get_deep_value(obj, path)` over the split path.  A `JVal.null` *is*
Python `None` (`json` deserializes `null` to `None`), so it is rejected at
entry (`if obj is None`), stops the walk like the loop's
`if current is None: return None`, and — landing on the path's final
segment — is returned as `None` by the trailing `return current`. -/
def get_deep_value : Option JVal → List (List Char) → Option JVal
  | none, _ => none
  | some JVal.null, _ => none
  | some cur, [] => some cur
  | some cur, part :: rest => get_deep_value (getDeepStep cur part) rest

/-- A completed step's result dict (the fields the claims read):
`success`, `message`, and the `data` payload (`none` for Python `None` or
an absent key — `get_deep_value` cannot tell `{}` from `None`). -/
structure StepResult where
  success : Bool
  message : String
  data : Option JVal

/-- `step_results[i]` (zero-based), `none` out of range. -/
def nthResult : List StepResult → Nat → Option StepResult
  | [], _ => none
  | r :: _, 0 => some r
  | _ :: rest, n + 1 => nthResult rest n

/-- `step_results[n-1].get("result", \x7b\x7d).get("data", \x7b\x7d)`. -/
def stepData (results : List StepResult) (n : Nat) : Option JVal :=
  match nthResult results (n - 1) with
  | some r => r.data
  | none => none

/-- One anchored match of `\x7b\x7bstep(\d+)\.([^\x7d]+)\x7d\x7d`: the
digit text, the path text, and the remainder after the match. -/
def matchPH (cs : List Char) : Option (List Char × List Char × List Char) :=
  match cs with
  | a :: b :: c1 :: c2 :: c3 :: c4 :: r =>
    if a = braceL ∧ b = braceL ∧ c1 = 's' ∧ c2 = 't' ∧ c3 = 'e' ∧ c4 = 'p'
    then
      let ds := r.takeWhile Char.isDigit
      match r.dropWhile Char.isDigit with
      | '.' :: r3 =>
        if ds = [] then none
        else
          let p := r3.takeWhile (fun c => !decide (c = braceR))
          match r3.dropWhile (fun c => !decide (c = braceR)) with
          | e1 :: e2 :: r5 =>
            if p ≠ [] ∧ e1 = braceR ∧ e2 = braceR then some (ds, p, r5)
            else none
          | _ => none
      | _ => none
    else none
  | _ => none

/-- `re.findall` of the placeholder pattern: scan left to right, consuming
each non-overlapping match (fuel: one char is consumed per step). -/
def scanPHAux : Nat → List Char → List (List Char × List Char)
  | 0, _ => []
  | fuel + 1, cs =>
    match cs with
    | [] => []
    | c :: r =>
      match matchPH cs with
      | some (ds, p, rest) => (ds, p) :: scanPHAux fuel rest
      | none => scanPHAux fuel r

/-- All placeholder matches of a string. -/
def scanPH (cs : List Char) : List (List Char × List Char) :=
  scanPHAux cs.length cs

/-- Prefix test on character lists. -/
def isPre : List Char → List Char → Bool
  | [], _ => true
  | _ :: _, [] => false
  | a :: as, b :: bs => decide (a = b) && isPre as bs

/-- Python `str.replace(old, new)` for nonempty `old` (fuel: one char is
consumed per step; every use passes a placeholder text as `old`). -/
def replaceAllAux : Nat → List Char → List Char → List Char → List Char
  | 0, cs, _, _ => cs
  | fuel + 1, cs, old, new =>
    match cs with
    | [] => []
    | c :: r =>
      if isPre old cs then new ++ replaceAllAux fuel (cs.drop old.length) old new
      else c :: replaceAllAux fuel r old new

/-- Python `value.replace(old, new)`. -/
def replaceAll (cs old new : List Char) : List Char :=
  replaceAllAux cs.length cs old new

/-- The rebuilt placeholder text
`f"\x7b\x7b\x7b\x7bstep\x7bstep_num\x7d.\x7bpath\x7d\x7d\x7d\x7d\x7d"`. -/
def renderPH (ds path : List Char) : List Char :=
  braceL :: braceL ::
    ('s' :: 't' :: 'e' :: 'p' :: (ds ++ ('.' :: (path ++ [braceR, braceR]))))

/-- Substitute every found placeholder in one string value: resolve it
against the step results, stringify (or `"NULL_ID"` on a `None` resolution
or an out-of-range step number), and replace all occurrences of the
rebuilt placeholder text, left to right over the original string's match
list. -/
def substStr (results : List StepResult) (cs : List Char) : List Char :=
  (scanPH cs).foldl
    (fun value m =>
      let n := natFromDigits m.1
      let ph := renderPH (natToDigits n) m.2
      if 0 < n ∧ n ≤ results.length then
        match get_deep_value (stepData results n) (splitDot m.2) with
        | none => replaceAll value ph nullId
        | some ev => replaceAll value ph (strOf ev)
      else replaceAll value ph nullId)
    cs

mutual
/-- `replace_value`: recursive placeholder substitution over a params
value (strings substituted, dicts and lists mapped, others unchanged). -/
def replace_value (results : List StepResult) : JVal → JVal
  | .str s => .str (String.mk (substStr results s.data))
  | .obj kvs => .obj (rvMembers results kvs)
  | .arr xs => .arr (rvList results xs)
  | v => v

/-- `replace_value` over dict members (keys unchanged). -/
def rvMembers (results : List StepResult) : JMembers → JMembers
  | .nil => .nil
  | .cons k v rest => .cons k (replace_value results v) (rvMembers results rest)

/-- `replace_value` over list items. -/
def rvList (results : List StepResult) : JList → JList
  | .nil => .nil
  | .cons v rest => .cons (replace_value results v) (rvList results rest)
end

mutual
/-- `check_null_id`: the paths of all string leaves that are exactly
`"NULL_ID"`. -/
def check_null_id : JVal → List Char → List (List Char)
  | .obj kvs, path => cniMembers kvs path
  | .arr xs, path => cniList xs path 0
  | .str s, path =>
    if s.data = nullId then
      [if path = [] then ['r', 'o', 'o', 't'] else path]
    else []
  | _, _ => []

/-- The per-child body of `check_null_id`'s container loops: a string
child is flagged when it equals the sentinel, a dict or list child is
recursed into, any other child is skipped. -/
def cniChild : JVal → List Char → List (List Char)
  | .str s, cp => if s.data = nullId then [cp] else []
  | .obj kvs, cp => cniMembers kvs cp
  | .arr xs, cp => cniList xs cp 0
  | _, _ => []

/-- `check_null_id` over dict members. -/
def cniMembers : JMembers → List Char → List (List Char)
  | .nil, _ => []
  | .cons k v rest, path =>
    let cp := if path = [] then k.data else path ++ ('.' :: k.data)
    cniChild v cp ++ cniMembers rest path

/-- `check_null_id` over list items with their indices. -/
def cniList : JList → List Char → Nat → List (List Char)
  | .nil, _, _ => []
  | .cons v rest, path, idx =>
    let cp := path ++ ('[' :: (natToDigits idx ++ [']']))
    cniChild v cp ++ cniList rest path (idx + 1)
end

mutual
/-- Whether some string leaf equals the sentinel exactly. -/
def hasNullStr : JVal → Bool
  | .str s => decide (s.data = nullId)
  | .obj kvs => hasNullStrM kvs
  | .arr xs => hasNullStrL xs
  | _ => false

/-- `hasNullStr` over dict members. -/
def hasNullStrM : JMembers → Bool
  | .nil => false
  | .cons _ v rest => hasNullStr v || hasNullStrM rest

/-- `hasNullStr` over list items. -/
def hasNullStrL : JList → Bool
  | .nil => false
  | .cons v rest => hasNullStr v || hasNullStrL rest
end

/-- The front of `_dispatch_execution`: substitute placeholders, then
raise `PlaceholderError` (carrying the offending paths) when
`check_null_id` finds a sentinel leaf, else go on to invoke the executor
with the substituted params. -/
def dispatch_execution (results : List StepResult) (params : JVal) :
    Except (List (List Char)) JVal :=
  let params2 := replace_value results params
  match check_null_id params2 [] with
  | [] => .ok params2
  | p :: ps => .error (p :: ps)

/-- Substring test (pattern, text). -/
def containsSub (pat : List Char) : List Char → Bool
  | [] => isPre pat []
  | c :: r => isPre pat (c :: r) || containsSub pat r

/-- `takeWhile`/`dropWhile` split an all-`q` block from a remainder whose
head fails `q`. -/
theorem span_pred (q : Char → Bool) :
    ∀ ds rest, (∀ c ∈ ds, q c = true) →
      (rest = [] ∨ ∃ c r, rest = c :: r ∧ q c = false) →
      (ds ++ rest).takeWhile q = ds ∧ (ds ++ rest).dropWhile q = rest
  | [], rest, _, hrest => by
    rcases hrest with rfl | ⟨c, r, rfl, hc⟩
    · simp
    · simp [List.takeWhile_cons, List.dropWhile_cons, hc]
  | d :: ds, rest, hds, hrest => by
    have hd : q d = true := hds d (by simp)
    obtain ⟨ih1, ih2⟩ := span_pred q ds rest
      (fun c hc => hds c (by simp [hc])) hrest
    simp [List.takeWhile_cons, List.dropWhile_cons, hd, ih1, ih2]

/-- The placeholder matcher consumes exactly a rendered placeholder. -/
theorem matchPH_render (ds p : List Char)
    (hds : ds ≠ []) (hdig : ∀ c ∈ ds, c.isDigit = true)
    (hp : p ≠ []) (hpbr : ∀ c ∈ p, c ≠ braceR) :
    matchPH (renderPH ds p) = some (ds, p, []) := by
  obtain ⟨ht1, hd1⟩ := span_pred Char.isDigit ds ('.' :: (p ++ [braceR, braceR]))
    hdig (Or.inr ⟨'.', _, rfl, by decide⟩)
  obtain ⟨ht2, hd2⟩ := span_pred (fun c => !decide (c = braceR)) p
    [braceR, braceR] (fun c hc => by simp [hpbr c hc])
    (Or.inr ⟨braceR, _, rfl, by simp⟩)
  rw [renderPH]
  simp only [matchPH]
  rw [if_pos (by simp)]
  rw [ht1, hd1]
  split
  · next r3 heq =>
    rw [List.cons.injEq] at heq
    rw [if_neg hds, ← heq.2, ht2, hd2]
    dsimp only
    rw [if_pos ⟨hp, rfl, rfl⟩]
  · next h =>
    exact absurd rfl (h _)

/-- The scanner finds nothing in an empty string. -/
theorem scanPHAux_nil (fuel : Nat) : scanPHAux fuel [] = [] := by
  cases fuel <;> rfl

/-- With any spare fuel, the scanner on a lone rendered placeholder finds
exactly that placeholder. -/
theorem scanPHAux_render (ds p : List Char)
    (hds : ds ≠ []) (hdig : ∀ c ∈ ds, c.isDigit = true)
    (hp : p ≠ []) (hpbr : ∀ c ∈ p, c ≠ braceR) (fuel : Nat) :
    scanPHAux (fuel + 1) (renderPH ds p) = [(ds, p)] := by
  rw [show renderPH ds p = braceL :: (braceL :: ('s' :: 't' :: 'e' :: 'p' ::
    (ds ++ ('.' :: (p ++ [braceR, braceR]))))) from by rw [renderPH]]
  rw [scanPHAux]
  rw [show braceL :: (braceL :: ('s' :: 't' :: 'e' :: 'p' ::
    (ds ++ ('.' :: (p ++ [braceR, braceR]))))) = renderPH ds p from by
    rw [renderPH]]
  rw [matchPH_render ds p hds hdig hp hpbr]
  dsimp only
  rw [scanPHAux_nil]

/-- `re.findall` on a string that is exactly one placeholder. -/
theorem scanPH_render (ds p : List Char)
    (hds : ds ≠ []) (hdig : ∀ c ∈ ds, c.isDigit = true)
    (hp : p ≠ []) (hpbr : ∀ c ∈ p, c ≠ braceR) :
    scanPH (renderPH ds p) = [(ds, p)] := by
  unfold scanPH
  rw [show (renderPH ds p).length = (braceL :: (braceL :: ('s' :: 't' :: 'e'
    :: 'p' :: (ds ++ ('.' :: (p ++ [braceR, braceR])))))).length from by
    rw [renderPH]]
  simp only [List.length_cons]
  exact scanPHAux_render ds p hds hdig hp hpbr _

/-- Every list is a prefix of itself. -/
theorem isPre_refl : ∀ l : List Char, isPre l l = true
  | [] => rfl
  | a :: as => by simp [isPre, isPre_refl as]

/-- `replace` of the empty string is the empty string. -/
theorem replaceAllAux_nil (fuel : Nat) (old new : List Char) :
    replaceAllAux fuel [] old new = [] := by
  cases fuel <;> rfl

/-- Replacing a whole string by `new` yields exactly `new`. -/
theorem replaceAll_self (cs new : List Char) (h : cs ≠ []) :
    replaceAll cs cs new = new := by
  match cs with
  | [] => exact absurd rfl h
  | c :: r =>
    unfold replaceAll
    rw [List.length_cons, replaceAllAux]
    rw [if_pos (isPre_refl (c :: r))]
    rw [show (c :: r).drop (c :: r).length = [] from List.drop_length _]
    rw [replaceAllAux_nil]
    simp

/-- A whole-string placeholder whose resolution yields `None` (or whose
step index is out of range) substitutes to exactly the sentinel. -/
theorem substStr_render (results : List StepResult) (n : Nat)
    (path : List Char) (hp : path ≠ []) (hpbr : ∀ c ∈ path, c ≠ braceR)
    (hres : 0 < n ∧ n ≤ results.length →
      get_deep_value (stepData results n) (splitDot path) = none) :
    substStr results (renderPH (natToDigits n) path) = nullId := by
  unfold substStr
  rw [scanPH_render (natToDigits n) path (natToDigits_ne_nil n)
    (natToDigits_all_digits n) hp hpbr]
  simp only [List.foldl_cons, List.foldl_nil]
  rw [natFromDigits_natToDigits]
  have hne : renderPH (natToDigits n) path ≠ [] := by
    rw [renderPH]
    simp
  by_cases hrange : 0 < n ∧ n ≤ results.length
  · rw [if_pos hrange, hres hrange]
    exact replaceAll_self _ _ hne
  · rw [if_neg hrange]
    exact replaceAll_self _ _ hne

mutual
/-- `check_null_id` is empty exactly when no string leaf is the
sentinel. -/
theorem cni_eq_nil : ∀ (v : JVal) (path : List Char),
    check_null_id v path = [] ↔ hasNullStr v = false
  | .null, path => by simp [check_null_id, hasNullStr]
  | .bool b, path => by simp [check_null_id, hasNullStr]
  | .int n, path => by simp [check_null_id, hasNullStr]
  | .float t, path => by simp [check_null_id, hasNullStr]
  | .str s, path => by
    simp only [check_null_id, hasNullStr]
    by_cases h : s.data = nullId
    · simp [h]
    · simp [h]
  | .obj kvs, path => by
    simp only [check_null_id, hasNullStr]
    exact cniM_eq_nil kvs path
  | .arr xs, path => by
    simp only [check_null_id, hasNullStr]
    exact cniL_eq_nil xs path 0
termination_by v _ => sizeOf v
decreasing_by all_goals (simp_wf; try omega)

/-- `cniChild` is empty exactly when the child holds no sentinel leaf. -/
theorem cniC_eq_nil : ∀ (v : JVal) (cp : List Char),
    cniChild v cp = [] ↔ hasNullStr v = false
  | .str s, cp => by
    by_cases h : s.data = nullId <;> simp [cniChild, hasNullStr, h]
  | .obj kvs, cp => by
    simpa [cniChild, hasNullStr] using cniM_eq_nil kvs cp
  | .arr xs, cp => by
    simpa [cniChild, hasNullStr] using cniL_eq_nil xs cp 0
  | .null, _ => by simp [cniChild, hasNullStr]
  | .bool b, _ => by simp [cniChild, hasNullStr]
  | .int n, _ => by simp [cniChild, hasNullStr]
  | .float t, _ => by simp [cniChild, hasNullStr]
termination_by v _ => sizeOf v
decreasing_by all_goals (simp_wf; try omega)

/-- `cniMembers` is empty exactly when no member holds a sentinel leaf. -/
theorem cniM_eq_nil : ∀ (kvs : JMembers) (path : List Char),
    cniMembers kvs path = [] ↔ hasNullStrM kvs = false
  | .nil, path => by simp [cniMembers, hasNullStrM]
  | .cons k v rest, path => by
    rw [cniMembers, hasNullStrM]
    rw [List.append_eq_nil, Bool.or_eq_false_iff]
    exact and_congr (cniC_eq_nil v _) (cniM_eq_nil rest path)
termination_by kvs _ => sizeOf kvs
decreasing_by all_goals (simp_wf; try omega)

/-- `cniList` is empty exactly when no item holds a sentinel leaf. -/
theorem cniL_eq_nil : ∀ (xs : JList) (path : List Char) (idx : Nat),
    cniList xs path idx = [] ↔ hasNullStrL xs = false
  | .nil, path, idx => by simp [cniList, hasNullStrL]
  | .cons v rest, path, idx => by
    rw [cniList, hasNullStrL]
    rw [List.append_eq_nil, Bool.or_eq_false_iff]
    exact and_congr (cniC_eq_nil v _) (cniL_eq_nil rest path (idx + 1))
termination_by xs _ _ => sizeOf xs
decreasing_by all_goals (simp_wf; try omega)
end

/-- C1 (amended): a params string that consists of exactly one placeholder
whose resolution yields `None` (or whose step index is out of range) is
substituted to exactly the sentinel `"NULL_ID"`, and `_dispatch_execution`
then raises `PlaceholderError` before invoking the executor; in general
the guard raises exactly when some string leaf of the substituted params
*equals* the sentinel — a sentinel merely *contained* in a longer string
leaf is not caught and the executor is invoked (see the
counterexample). -/
theorem C1_placeholder_guard :
    (∀ (results : List StepResult) (n : Nat) (path : List Char)
        (key : String), path ≠ [] → (∀ c ∈ path, c ≠ braceR) →
      (0 < n ∧ n ≤ results.length →
        get_deep_value (stepData results n) (splitDot path) = none) →
      dispatch_execution results
          (JVal.obj (JMembers.cons key
            (JVal.str (String.mk (renderPH (natToDigits n) path)))
            JMembers.nil)) =
        Except.error [key.data]) ∧
    (∀ results params, hasNullStr (replace_value results params) = false →
      dispatch_execution results params =
        Except.ok (replace_value results params)) ∧
    (∀ results params, hasNullStr (replace_value results params) = true →
      ∃ e, dispatch_execution results params = Except.error e) := by
  refine ⟨?_, ?_, ?_⟩
  · intro results n path key hp hpbr hres
    unfold dispatch_execution
    dsimp only
    rw [show replace_value results
        (JVal.obj (JMembers.cons key
          (JVal.str (String.mk (renderPH (natToDigits n) path)))
          JMembers.nil)) =
        JVal.obj (JMembers.cons key (JVal.str (String.mk nullId))
          JMembers.nil) from by
      rw [replace_value, rvMembers, rvMembers, replace_value]
      rw [show (String.mk (renderPH (natToDigits n) path)).data =
        renderPH (natToDigits n) path from rfl]
      rw [substStr_render results n path hp hpbr hres]]
    rw [show check_null_id
        (JVal.obj (JMembers.cons key (JVal.str (String.mk nullId))
          JMembers.nil)) [] = [key.data] from by
      rw [check_null_id, cniMembers]
      rw [if_pos rfl]
      rw [cniChild, if_pos rfl, cniMembers]
      rfl]
  · intro results params h
    unfold dispatch_execution
    dsimp only
    rw [(cni_eq_nil (replace_value results params) []).mpr h]
  · intro results params h
    unfold dispatch_execution
    dsimp only
    cases h2 : check_null_id (replace_value results params) [] with
    | nil =>
      have h3 := (cni_eq_nil (replace_value results params) []).mp h2
      rw [h] at h3
      exact absurd h3 (by simp)
    | cons p ps =>
      exact ⟨p :: ps, rfl⟩

/-- C1 counterexample: the placeholder in `"a<ph>b"` (a placeholder
embedded in surrounding text) resolves to `None` and becomes the leaf
`"aNULL_IDb"`, which *contains* the sentinel, yet the guard does not fire
and the executor is invoked with the unresolved value. -/
theorem C1_placeholder_counterexample :
    dispatch_execution [⟨true, "ok", some (JVal.obj JMembers.nil)⟩]
        (JVal.obj (JMembers.cons "p"
          (JVal.str (String.mk ('a' :: braceL :: braceL :: 's' :: 't' :: 'e'
            :: 'p' :: '1' :: '.' :: 'x' :: braceR :: braceR :: ['b'])))
          JMembers.nil)) =
      Except.ok (JVal.obj (JMembers.cons "p"
        (JVal.str (String.mk ('a' :: 'N' :: 'U' :: 'L' :: 'L' :: '_' :: 'I'
          :: 'D' :: ['b']))) JMembers.nil)) ∧
    containsSub nullId
      ('a' :: 'N' :: 'U' :: 'L' :: 'L' :: '_' :: 'I' :: 'D' :: ['b']) =
      true := by
  constructor
  · have hd1 : natToDigits 1 = ['1'] := by
      rw [natToDigits]
      rw [if_pos (by norm_num)]
      decide
    have hsub : substStr [⟨true, "ok", some (JVal.obj JMembers.nil)⟩]
        ('a' :: braceL :: braceL :: 's' :: 't' :: 'e' :: 'p' :: '1' :: '.'
          :: 'x' :: braceR :: braceR :: ['b']) =
        'a' :: 'N' :: 'U' :: 'L' :: 'L' :: '_' :: 'I' :: 'D' :: ['b'] := by
      unfold substStr
      rw [show scanPH ('a' :: braceL :: braceL :: 's' :: 't' :: 'e' :: 'p'
        :: '1' :: '.' :: 'x' :: braceR :: braceR :: ['b']) =
        [(['1'], ['x'])] from by decide]
      simp only [List.foldl_cons, List.foldl_nil]
      rw [show natFromDigits ['1'] = 1 from by decide]
      rw [hd1]
      rw [if_pos (by decide)]
      rw [show get_deep_value
        (stepData [⟨true, "ok", some (JVal.obj JMembers.nil)⟩] 1)
        (splitDot ['x']) = none from rfl]
      rfl
    unfold dispatch_execution
    dsimp only
    rw [show replace_value [⟨true, "ok", some (JVal.obj JMembers.nil)⟩]
        (JVal.obj (JMembers.cons "p"
          (JVal.str (String.mk ('a' :: braceL :: braceL :: 's' :: 't' :: 'e'
            :: 'p' :: '1' :: '.' :: 'x' :: braceR :: braceR :: ['b'])))
          JMembers.nil)) =
        JVal.obj (JMembers.cons "p"
          (JVal.str (String.mk ('a' :: 'N' :: 'U' :: 'L' :: 'L' :: '_' :: 'I'
            :: 'D' :: ['b']))) JMembers.nil) from by
      rw [replace_value, rvMembers, rvMembers, replace_value]
      rw [show (String.mk ('a' :: braceL :: braceL :: 's' :: 't' :: 'e'
        :: 'p' :: '1' :: '.' :: 'x' :: braceR :: braceR :: ['b'])).data =
        'a' :: braceL :: braceL :: 's' :: 't' :: 'e' :: 'p' :: '1' :: '.'
          :: 'x' :: braceR :: braceR :: ['b'] from rfl]
      rw [hsub]]
    rfl
  · rfl

/-- C1 witness: the guard at concrete inputs — an out-of-range whole-string
placeholder is rejected, a whole-string placeholder resolving to an
explicit JSON `null` (Python `None`) is rejected, and sentinel-free params
are dispatched. -/
theorem C1_placeholder_guard_witness :
    dispatch_execution []
        (JVal.obj (JMembers.cons "p"
          (JVal.str (String.mk (renderPH (natToDigits 1) ['x'])))
          JMembers.nil)) = Except.error [String.data "p"] ∧
    dispatch_execution [⟨true, "ok",
        some (JVal.obj (JMembers.cons "x" JVal.null JMembers.nil))⟩]
        (JVal.obj (JMembers.cons "p"
          (JVal.str (String.mk (renderPH (natToDigits 1) ['x'])))
          JMembers.nil)) = Except.error [String.data "p"] ∧
    dispatch_execution [] (JVal.str "hello") =
      Except.ok (replace_value [] (JVal.str "hello")) :=
  ⟨C1_placeholder_guard.1 [] 1 ['x'] "p" (by decide) (by decide)
      (fun h => absurd h (by decide)),
   C1_placeholder_guard.1 [⟨true, "ok",
        some (JVal.obj (JMembers.cons "x" JVal.null JMembers.nil))⟩]
      1 ['x'] "p" (by decide) (by decide) (fun _ => rfl),
   C1_placeholder_guard.2.1 [] (JVal.str "hello")
      (by simp only [replace_value, hasNullStr]; decide)⟩

/-! ## Step retry and plan loop (`plan_executor.py`)

`_execute_step_with_retry` is a loop over `attempt = 1 .. max_attempts`.
The embedding abstracts the environment into oracles: `desc attempt` is the
current step's description at that attempt (the Reflector may swap the
step), `conf` is the `_sensitive_confirmation_<i>` context entry as
observed after the 30-second wait (`none` = still absent), `att attempt`
is what dispatching the current step does on that attempt (a result, a
`PlaceholderError`, or another exception), and `refl attempt` is whether
the Reflector's reflection is retryable with a modified step.  Stop flags
(`_check_stop` / `_stop_execution`) are not modeled (treated as unset). -/

/-- A step of a plan (the fields the executor reads). -/
structure Step where
  type : String
  description : String
  params : JVal

/-- Python truthiness of a JSON-ish value (a float token is falsy only as
the literal `0.0` — no claim evaluates float flags). -/
def pyTruthy : JVal → Bool
  | .null => false
  | .bool b => b
  | .int n => decide (n ≠ 0)
  | .float tok => decide (tok ≠ "0.0")
  | .str s => decide (s ≠ "")
  | .arr .nil => false
  | .arr (.cons _ _) => true
  | .obj .nil => false
  | .obj (.cons _ _ _) => true

/-- What one dispatch of the current step does. -/
inductive AttemptOutcome where
  | res (r : StepResult)
  | placeErr (ph : String)
  | exn (msg : String)

/-- The config-error check on a failed result's `data`:
`error_data = result.get('data') or \x7b\x7d`, then
`error_data.get('is_config_error', False)` / `requires_user_action` when
`error_data` is truthy.  `none` models the `AttributeError` raised by
`.get` on a truthy non-dict payload (swallowed by `except Exception`). -/
def checkFlags : Option JVal → Option Bool
  | none => some false
  | some v =>
    if pyTruthy v then
      match v with
      | .obj kvs =>
        some ((match lookupJM kvs "is_config_error" with
               | some x => pyTruthy x
               | none => false) ||
              (match lookupJM kvs "requires_user_action" with
               | some x => pyTruthy x
               | none => false))
      | _ => none
    else some false

/-- The `[SENSITIVE]`-confirmation gate of one attempt: `some failure`
when the attempt returns early (confirmation absent after the wait, or
denied), `none` when execution proceeds. -/
def retryGate (desc : Nat → String) (conf : Option Bool) (attempt : Nat) :
    Option StepResult :=
  if isPre ("[SENSITIVE]".data) (desc attempt).data then
    match conf with
    | none => some ⟨false, "用户未确认敏感操作，执行已取消", none⟩
    | some false => some ⟨false, "用户拒绝了敏感操作，执行已取消", none⟩
    | some true => none
  else none

/-- One attempt's body after the gate: dispatch, then on a failed result
check the config-error flags (terminal return) or retry through the
continuation `cont` (the next loop iteration with the updated
`last_result`); a raised `PlaceholderError` retries only when the
reflection is retryable and attempts remain (falling off the loop returns
the old `last_result`); any other exception retries until the last
attempt's runtime-error result. -/
def retryBody (att : Nat → AttemptOutcome) (refl : Nat → Bool)
    (max attempt : Nat) (last : StepResult)
    (cont : StepResult → StepResult) : StepResult :=
  match att attempt with
  | .res r =>
    if r.success then r
    else
      match checkFlags r.data with
      | none =>
        if attempt = max then ⟨false, "Runtime Error: flag check", none⟩
        else cont last
      | some b =>
        if b then r
        else if attempt < max then cont r
        else r
  | .placeErr ph =>
    if refl attempt then
      if attempt < max then cont last
      else last
    else ⟨false, "占位符错误无法修复: " ++ ph, none⟩
  | .exn msg =>
    if attempt = max then ⟨false, "Runtime Error: " ++ msg, none⟩
    else cont last

/-- The attempt loop of `_execute_step_with_retry`: `remaining` iterations
left, `attempt` the 1-based attempt number, `last` the `last_result`
accumulator; falling off the loop returns `last`. -/
def retryGo (desc : Nat → String) (conf : Option Bool)
    (att : Nat → AttemptOutcome) (refl : Nat → Bool) (max : Nat) :
    Nat → Nat → StepResult → StepResult
  | 0, _, last => last
  | remaining + 1, attempt, last =>
    match retryGate desc conf attempt with
    | some r => r
    | none =>
      retryBody att refl max attempt last
        (retryGo desc conf att refl max remaining (attempt + 1))

/-- `_execute_step_with_retry`: run the loop from attempt 1 with the
initial `last_result = \x7b"success": False, "message": "None"\x7d`. -/
def execute_step_with_retry (desc : Nat → String) (conf : Option Bool)
    (att : Nat → AttemptOutcome) (refl : Nat → Bool) (max : Nat) :
    StepResult :=
  retryGo desc conf att refl max max 1 ⟨false, "None", none⟩

/-- The gate of one attempt is pass-through (`none`) when the step is not
sensitive or the confirmation is affirmative. -/
theorem retryGate_none (desc : Nat → String) (conf : Option Bool)
    (attempt : Nat)
    (h : isPre ("[SENSITIVE]".data) (desc attempt).data = false ∨
      conf = some true) :
    retryGate desc conf attempt = none := by
  unfold retryGate
  rcases h with hs | hc
  · rw [if_neg (by simp [hs])]
  · subst hc
    by_cases hb : isPre ("[SENSITIVE]".data) (desc attempt).data = true
    · rw [if_pos hb]
    · rw [if_neg hb]

/-- A failed result whose data flags a config error is returned as-is by
the attempt body, whatever the continuation. -/
theorem retryBody_config_error (att : Nat → AttemptOutcome)
    (refl : Nat → Bool) (max attempt : Nat) (last r : StepResult)
    (cont : StepResult → StepResult)
    (hatt : att attempt = .res r) (hfail : r.success = false)
    (hflag : checkFlags r.data = some true) :
    retryBody att refl max attempt last cont = r := by
  rw [retryBody, hatt]
  dsimp only
  rw [if_neg (by simp [hfail])]
  rw [hflag]
  dsimp only
  rw [if_pos rfl]

/-- A failed result whose data flags a config error is returned as-is from
any attempt with any number of retries remaining. -/
theorem retryGo_config_error (desc : Nat → String) (conf : Option Bool)
    (att : Nat → AttemptOutcome) (refl : Nat → Bool)
    (max remaining attempt : Nat) (last r : StepResult)
    (hgate : isPre ("[SENSITIVE]".data) (desc attempt).data = false ∨
      conf = some true)
    (hatt : att attempt = .res r) (hfail : r.success = false)
    (hflag : checkFlags r.data = some true) :
    retryGo desc conf att refl max (remaining + 1) attempt last = r := by
  rw [retryGo]
  rw [retryGate_none desc conf attempt hgate]
  dsimp only
  exact retryBody_config_error att refl max attempt last r _ hatt hfail hflag

/-- C2: a step whose (current) description starts with `[SENSITIVE]` never
reaches dispatch without an affirmative confirmation: with the entry still
absent after the wait the call returns the terminal
`用户未确认敏感操作，执行已取消` failure, with a `false` entry the terminal
`用户拒绝了敏感操作，执行已取消` failure — in both cases for *every*
dispatch and reflection oracle, so no executor call and no retry happen —
while an affirmative entry lets the dispatch result through. -/
theorem C2_sensitive_gate :
    ∀ (desc : Nat → String) (att : Nat → AttemptOutcome)
      (refl : Nat → Bool) (max : Nat), 1 ≤ max →
      isPre ("[SENSITIVE]".data) (desc 1).data = true →
      (execute_step_with_retry desc none att refl max =
        ⟨false, "用户未确认敏感操作，执行已取消", none⟩) ∧
      (execute_step_with_retry desc (some false) att refl max =
        ⟨false, "用户拒绝了敏感操作，执行已取消", none⟩) ∧
      (∀ r, att 1 = AttemptOutcome.res r → r.success = true →
        execute_step_with_retry desc (some true) att refl max = r) := by
  intro desc att refl max h1 hsens
  cases max with
  | zero => omega
  | succ k =>
    refine ⟨?_, ?_, ?_⟩
    · unfold execute_step_with_retry
      rw [retryGo]
      rw [show retryGate desc none 1 =
          some ⟨false, "用户未确认敏感操作，执行已取消", none⟩ from by
        unfold retryGate
        rw [if_pos hsens]]
    · unfold execute_step_with_retry
      rw [retryGo]
      rw [show retryGate desc (some false) 1 =
          some ⟨false, "用户拒绝了敏感操作，执行已取消", none⟩ from by
        unfold retryGate
        rw [if_pos hsens]]
    · intro r hatt hsucc
      unfold execute_step_with_retry
      rw [retryGo]
      rw [show retryGate desc (some true) 1 = none from by
        unfold retryGate
        rw [if_pos hsens]]
      dsimp only
      rw [retryBody, hatt]
      dsimp only
      rw [if_pos hsucc]

/-- C2 witness: the gate at a concrete sensitive step — absent and denied
confirmations fail terminally, an affirmative one returns the dispatch
result. -/
theorem C2_sensitive_gate_witness :
    execute_step_with_retry (fun _ => "[SENSITIVE] 删除文件") none
        (fun _ => AttemptOutcome.res ⟨true, "done", none⟩)
        (fun _ => false) 3 =
      ⟨false, "用户未确认敏感操作，执行已取消", none⟩ ∧
    execute_step_with_retry (fun _ => "[SENSITIVE] 删除文件") (some false)
        (fun _ => AttemptOutcome.res ⟨true, "done", none⟩)
        (fun _ => false) 3 =
      ⟨false, "用户拒绝了敏感操作，执行已取消", none⟩ ∧
    execute_step_with_retry (fun _ => "[SENSITIVE] 删除文件") (some true)
        (fun _ => AttemptOutcome.res ⟨true, "done", none⟩)
        (fun _ => false) 3 =
      ⟨true, "done", none⟩ := by
  have h := C2_sensitive_gate (fun _ => "[SENSITIVE] 删除文件")
    (fun _ => AttemptOutcome.res ⟨true, "done", none⟩) (fun _ => false) 3
    (by decide) (by decide)
  exact ⟨h.1, h.2.1, h.2.2 ⟨true, "done", none⟩ rfl rfl⟩

/-- C3: a failure result whose `data` marks `is_config_error` or
`requires_user_action` truthy is returned immediately by the retry loop —
from any attempt, with any retries remaining and any reflection oracle —
and hence by `_execute_step_with_retry` when its first dispatch returns
such a result. -/
theorem C3_config_error_no_retry :
    (∀ (desc : Nat → String) (conf : Option Bool)
        (att : Nat → AttemptOutcome) (refl : Nat → Bool)
        (max remaining attempt : Nat) (last r : StepResult),
      (isPre ("[SENSITIVE]".data) (desc attempt).data = false ∨
        conf = some true) →
      att attempt = AttemptOutcome.res r → r.success = false →
      checkFlags r.data = some true →
      retryGo desc conf att refl max (remaining + 1) attempt last = r) ∧
    (∀ (desc : Nat → String) (conf : Option Bool)
        (att : Nat → AttemptOutcome) (refl : Nat → Bool) (max : Nat)
        (r : StepResult),
      1 ≤ max →
      (isPre ("[SENSITIVE]".data) (desc 1).data = false ∨
        conf = some true) →
      att 1 = AttemptOutcome.res r → r.success = false →
      checkFlags r.data = some true →
      execute_step_with_retry desc conf att refl max = r) := by
  constructor
  · intro desc conf att refl max remaining attempt last r hgate hatt hfail
      hflag
    exact retryGo_config_error desc conf att refl max remaining attempt
      last r hgate hatt hfail hflag
  · intro desc conf att refl max r h1 hgate hatt hfail hflag
    cases max with
    | zero => omega
    | succ k =>
      unfold execute_step_with_retry
      exact retryGo_config_error desc conf att refl (k + 1) k 1 _ r hgate
        hatt hfail hflag

/-- C3 witness: a concrete config-error failure is returned unchanged with
two retries remaining and a retry-happy reflection oracle. -/
theorem C3_config_error_no_retry_witness :
    execute_step_with_retry (fun _ => "发送邮件") none
        (fun _ => AttemptOutcome.res ⟨false, "缺少 API Key",
          some (JVal.obj (JMembers.cons "is_config_error" (JVal.bool true)
            JMembers.nil))⟩) (fun _ => true) 3 =
      ⟨false, "缺少 API Key",
        some (JVal.obj (JMembers.cons "is_config_error" (JVal.bool true)
          JMembers.nil))⟩ :=
  C3_config_error_no_retry.2 (fun _ => "发送邮件") none
    (fun _ => AttemptOutcome.res ⟨false, "缺少 API Key",
      some (JVal.obj (JMembers.cons "is_config_error" (JVal.bool true)
        JMembers.nil))⟩) (fun _ => true) 3
    ⟨false, "缺少 API Key",
      some (JVal.obj (JMembers.cons "is_config_error" (JVal.bool true)
        JMembers.nil))⟩
    (by decide) (Or.inl (by decide)) rfl rfl (by decide)

/-- `execute_plan`'s step loop: run each step in order (its outcome given
by the oracle `out i`), record `(step, result)` pairs, carry the overall
success flag and the first failure's message, and break on the first
failure.  Stop flags are not modeled (treated as unset). -/
def execPlanGo (out : Nat → StepResult) :
    List Step → Nat → List (Step × StepResult) × Bool × String
  | [], _ => ([], true, "")
  | s :: rest, i =>
    if (out i).success then
      ((s, out i) :: (execPlanGo out rest (i + 1)).1,
       (execPlanGo out rest (i + 1)).2.1,
       (execPlanGo out rest (i + 1)).2.2)
    else ([(s, out i)], false, (out i).message)

/-- The overall return value of `execute_plan`. -/
structure PlanOutcome where
  success : Bool
  message : String
  steps : List (Step × StepResult)

/-- `execute_plan`: run the loop from index 0 and package the summary. -/
def execute_plan (plan : List Step) (out : Nat → StepResult) :
    PlanOutcome :=
  ⟨(execPlanGo out plan 0).2.1,
   if (execPlanGo out plan 0).2.1 then "执行完成"
   else "执行失败: " ++ (execPlanGo out plan 0).2.2,
   (execPlanGo out plan 0).1⟩

/-- The step loop records exactly the dispatched prefix: one record per
dispatched step in order, all but the last successful, stopping exactly at
the first failure. -/
theorem execPlanGo_spec (out : Nat → StepResult) :
    ∀ (plan : List Step) (i : Nat),
      (execPlanGo out plan i).1.length ≤ plan.length ∧
      (∀ j, j < (execPlanGo out plan i).1.length →
        (execPlanGo out plan i).1.get? j =
          (plan.get? j).map (fun s => (s, out (i + j)))) ∧
      (∀ j, j + 1 < (execPlanGo out plan i).1.length →
        (out (i + j)).success = true) ∧
      (∀ j, j < (execPlanGo out plan i).1.length →
        (out (i + j)).success = false →
        (execPlanGo out plan i).1.length = j + 1) ∧
      ((execPlanGo out plan i).1.length < plan.length →
        0 < (execPlanGo out plan i).1.length ∧
        (out (i + (execPlanGo out plan i).1.length - 1)).success = false)
  | [], i => by
    refine ⟨by simp [execPlanGo], ?_, ?_, ?_, ?_⟩
    · intro j h
      simp [execPlanGo] at h
    · intro j h
      simp [execPlanGo] at h
    · intro j h
      simp [execPlanGo] at h
    · intro h
      simp [execPlanGo] at h
  | s :: rest, i => by
    obtain ⟨ih1, ih2, ih3, ih4, ih5⟩ := execPlanGo_spec out rest (i + 1)
    by_cases hs : (out i).success = true
    · rw [execPlanGo, if_pos hs]
      dsimp only
      refine ⟨?_, ?_, ?_, ?_, ?_⟩
      · simp only [List.length_cons]
        omega
      · intro j hj
        cases j with
        | zero =>
          show some (s, out i) = some (s, out (i + 0))
          rw [Nat.add_zero]
        | succ j2 =>
          simp only [List.length_cons] at hj
          show (execPlanGo out rest (i + 1)).1.get? j2 =
            (rest.get? j2).map (fun s => (s, out (i + (j2 + 1))))
          rw [ih2 j2 (by omega)]
          rw [show i + 1 + j2 = i + (j2 + 1) from by omega]
      · intro j hj
        cases j with
        | zero =>
          rw [Nat.add_zero]
          exact hs
        | succ j2 =>
          simp only [List.length_cons] at hj
          rw [show i + (j2 + 1) = i + 1 + j2 from by omega]
          exact ih3 j2 (by omega)
      · intro j hj hf
        cases j with
        | zero =>
          rw [Nat.add_zero] at hf
          rw [hf] at hs
          exact absurd hs (by simp)
        | succ j2 =>
          simp only [List.length_cons] at hj ⊢
          rw [show i + (j2 + 1) = i + 1 + j2 from by omega] at hf
          rw [ih4 j2 (by omega) hf]
      · intro hlt
        simp only [List.length_cons] at hlt ⊢
        have hlt2 : (execPlanGo out rest (i + 1)).1.length < rest.length :=
          by omega
        obtain ⟨hp, hf⟩ := ih5 hlt2
        refine ⟨by omega, ?_⟩
        rw [show i + ((execPlanGo out rest (i + 1)).1.length + 1) - 1 =
          i + 1 + (execPlanGo out rest (i + 1)).1.length - 1 from by omega]
        exact hf
    · rw [execPlanGo, if_neg hs]
      have hsf : (out i).success = false := by
        revert hs
        cases (out i).success <;> simp
      refine ⟨?_, ?_, ?_, ?_, ?_⟩
      · simp only [List.length_cons, List.length_nil]
        omega
      · intro j hj
        simp only [List.length_cons, List.length_nil] at hj
        match j, hj with
        | 0, _ =>
          show some (s, out i) = some (s, out (i + 0))
          rw [Nat.add_zero]
      · intro j hj
        simp only [List.length_cons, List.length_nil] at hj
        omega
      · intro j hj _
        simp only [List.length_cons, List.length_nil] at hj ⊢
        omega
      · intro hlt
        simp only [List.length_cons, List.length_nil] at hlt ⊢
        refine ⟨by omega, ?_⟩
        rw [show i + 1 - 1 = i from by omega]
        exact hsf

/-- C4: the records of `execute_plan` are exactly the dispatched prefix of
the plan — their number equals the index of the last dispatched step plus
one, each record pairs the plan's step with its outcome, every record but
possibly the last is a success, a failure at index `j` makes the record
list exactly `j + 1` long (no later step is dispatched), and a stop before
the end of the plan happens only on a failing last record. -/
theorem C4_execute_plan_results (plan : List Step)
    (out : Nat → StepResult) :
    (execute_plan plan out).steps.length ≤ plan.length ∧
    (∀ j, j < (execute_plan plan out).steps.length →
      (execute_plan plan out).steps.get? j =
        (plan.get? j).map (fun s => (s, out j))) ∧
    (∀ j, j + 1 < (execute_plan plan out).steps.length →
      (out j).success = true) ∧
    (∀ j, j < (execute_plan plan out).steps.length →
      (out j).success = false →
      (execute_plan plan out).steps.length = j + 1) ∧
    ((execute_plan plan out).steps.length < plan.length →
      0 < (execute_plan plan out).steps.length ∧
      (out ((execute_plan plan out).steps.length - 1)).success = false) := by
  have h := execPlanGo_spec out plan 0
  simp only [Nat.zero_add] at h
  exact h

/-- C4 witness: a three-step plan whose second step fails records exactly
two steps. -/
theorem C4_execute_plan_results_witness :
    (execute_plan
        [⟨"open_app", "打开", JVal.null⟩, ⟨"open_app", "打开", JVal.null⟩,
         ⟨"open_app", "打开", JVal.null⟩]
        (fun i => if i = 1 then ⟨false, "boom", none⟩
          else ⟨true, "ok", none⟩)).steps.length = 2 :=
  (C4_execute_plan_results
      [⟨"open_app", "打开", JVal.null⟩, ⟨"open_app", "打开", JVal.null⟩,
       ⟨"open_app", "打开", JVal.null⟩]
      (fun i => if i = 1 then ⟨false, "boom", none⟩
        else ⟨true, "ok", none⟩)).2.2.2.1 1 (by decide) (by decide)

/-! ## Executor routing (`plan_executor.py` / `system_tools.py`)

`_register_executors` fills `executor_registry`; `_get_executor_for_step`
looks the step type up there, falls back to `file_manager` for three
known-bad aliases, and defaults to `system_tools`.  `SystemTools.
execute_step` dispatches over its `elif` chain (each `_xxx` handler is
abstracted as the oracle `handler`), answers the four file-related alias
types with a dedicated failure, and any other type with the
`SystemTools 不支持的操作类型` failure listing the first ten supported
types.  The `tools` dict is modeled as holding all four executors. -/

/-- The routing table built by `_register_executors`. -/
def executor_registry : List (String × String) :=
  [("file_create", "file_manager"), ("file_read", "file_manager"),
   ("file_write", "file_manager"), ("file_delete", "file_manager"),
   ("file_rename", "file_manager"), ("file_move", "file_manager"),
   ("file_copy", "file_manager"), ("file_organize", "file_manager"),
   ("file_classify", "file_manager"), ("file_batch_rename", "file_manager"),
   ("file_batch_copy", "file_manager"),
   ("file_batch_organize", "file_manager"),
   ("create_file", "file_manager"), ("read_file", "file_manager"),
   ("list_dir", "file_manager"), ("delete_file", "file_manager"),
   ("browser_navigate", "browser_executor"),
   ("browser_click", "browser_executor"),
   ("browser_fill", "browser_executor"),
   ("browser_wait", "browser_executor"),
   ("browser_screenshot", "browser_executor"),
   ("browser_check_element", "browser_executor"),
   ("download_file", "browser_executor"),
   ("request_login", "browser_executor"),
   ("request_captcha", "browser_executor"),
   ("request_qr_login", "browser_executor"),
   ("open_url", "browser_executor"), ("click", "browser_executor"),
   ("type", "browser_executor"), ("scroll", "browser_executor"),
   ("scrape", "browser_executor"), ("screenshot_web", "browser_executor"),
   ("screenshot_desktop", "system_tools"), ("open_app", "system_tools"),
   ("close_app", "system_tools"), ("set_volume", "system_tools"),
   ("set_brightness", "system_tools"), ("get_system_info", "system_tools"),
   ("open_folder", "system_tools"), ("open_file", "system_tools"),
   ("text_process", "system_tools"), ("python_script", "system_tools"),
   ("python", "system_tools"), ("code_interpreter", "system_tools"),
   ("send_email", "email_executor"), ("search_emails", "email_executor"),
   ("get_email_details", "email_executor"),
   ("download_attachments", "email_executor"),
   ("manage_emails", "email_executor"),
   ("compress_files", "email_executor")]

/-- `_get_executor_for_step`: registry lookup, then the known-bad alias
fallback, then the `system_tools` default. -/
def get_executor_for_step (step_type : String) : String :=
  match executor_registry.lookup step_type with
  | some name => name
  | none =>
    if step_type ∈ ["file_manager", "FileManager", "file_operation"] then
      "file_manager"
    else "system_tools"

/-- The step types handled by `SystemTools.execute_step`'s `elif` chain. -/
def systemHandledTypes : List String :=
  ["screenshot_desktop", "open_folder", "open_file", "list_files",
   "open_app", "close_app", "execute_python_script", "set_volume",
   "set_brightness", "send_notification", "clipboard_read",
   "clipboard_write", "keyboard_type", "keyboard_shortcut", "mouse_click",
   "mouse_move", "window_minimize", "window_maximize", "window_close",
   "speak", "get_system_info", "image_process",
   "download_latest_python_installer", "set_reminder", "list_reminders",
   "cancel_reminder", "create_workflow", "list_workflows",
   "delete_workflow", "get_task_history", "search_history", "add_favorite",
   "list_favorites", "remove_favorite", "text_process", "analyze_document",
   "run_applescript", "manage_calendar_event", "manage_reminder",
   "visual_assist"]

/-- The `supported_types` list of the unsupported-type failure message. -/
def supported_types : List String :=
  ["screenshot_desktop", "open_folder", "open_file", "list_files",
   "open_app", "close_app", "execute_python_script", "set_volume",
   "set_brightness", "send_notification", "clipboard_read",
   "clipboard_write", "keyboard_type", "keyboard_shortcut", "mouse_click",
   "mouse_move", "window_minimize", "window_maximize", "window_close",
   "speak", "get_system_info", "image_process", "set_reminder",
   "list_reminders", "cancel_reminder", "create_workflow",
   "list_workflows", "delete_workflow", "get_task_history",
   "search_history", "add_favorite", "list_favorites", "remove_favorite",
   "text_process", "analyze_document", "run_applescript",
   "manage_calendar_event", "manage_reminder", "visual_assist"]

/-- The file-related alias types `SystemTools` answers specially. -/
def sysFileRelatedTypes : List String :=
  ["file_manager", "FileManager", "file_operation", "app_control"]

/-- `SystemTools.execute_step`, per-handler behavior abstracted as the
oracle `handler`: route a handled type to its handler, answer alias types
with the invalid-type failure, and everything else with the
unsupported-type failure listing the first ten supported types. -/
def SystemTools_execute_step (handler : String → StepResult)
    (step_type : String) : StepResult :=
  if step_type ∈ systemHandledTypes then handler step_type
  else if step_type ∈ sysFileRelatedTypes then
    ⟨false, "错误：'" ++ step_type ++
      "' 不是有效的操作类型。文件操作应使用标准类型：file_delete, file_read, file_write, file_create, file_rename, file_move, file_copy。当前操作类型 '"
      ++ step_type ++ "' 无效。", none⟩
  else
    ⟨false, "SystemTools 不支持的操作类型: '" ++ step_type ++
      "'。支持的类型: " ++ String.intercalate ", " (supported_types.take 10)
      ++ "...", none⟩

/-- C9 (amended): a step type absent from the registry and not a known-bad
alias routes to the system executor; there, a type also absent from
`SystemTools`' own `elif` chain gets the unsupported-type failure naming
the type and the *first ten* supported types — but a type in the chain
(several of which, e.g. `list_files`, are not in the registry) is
dispatched to its handler instead of failing. -/
theorem C9_unregistered_dispatch :
    (∀ t, executor_registry.lookup t = none →
      t ∉ ["file_manager", "FileManager", "file_operation"] →
      get_executor_for_step t = "system_tools") ∧
    (∀ (handler : String → StepResult) t, t ∉ systemHandledTypes →
      t ∉ sysFileRelatedTypes →
      SystemTools_execute_step handler t =
        ⟨false, "SystemTools 不支持的操作类型: '" ++ t ++
          "'。支持的类型: " ++
          String.intercalate ", " (supported_types.take 10) ++ "...",
          none⟩) ∧
    (∀ (handler : String → StepResult) t, t ∈ systemHandledTypes →
      SystemTools_execute_step handler t = handler t) := by
  refine ⟨?_, ?_, ?_⟩
  · intro t h1 h2
    unfold get_executor_for_step
    rw [h1]
    dsimp only
    rw [if_neg h2]
  · intro handler t h1 h2
    unfold SystemTools_execute_step
    rw [if_neg h1, if_neg h2]
  · intro handler t h1
    unfold SystemTools_execute_step
    rw [if_pos h1]

/-- C9 counterexample: `list_files` is in no registry entry and is no
alias, so it routes to the system executor — but `SystemTools` handles it
directly, returning the handler's (here successful) result instead of the
claimed unsupported-type failure. -/
theorem C9_unregistered_dispatch_counterexample :
    executor_registry.lookup "list_files" = none ∧
    "list_files" ∉ ["file_manager", "FileManager", "file_operation"] ∧
    get_executor_for_step "list_files" = "system_tools" ∧
    SystemTools_execute_step (fun _ => ⟨true, "已列出文件", none⟩)
      "list_files" = ⟨true, "已列出文件", none⟩ := by
  refine ⟨by decide, by decide, by decide, ?_⟩
  rfl

/-- C9 witness: routing and the unsupported-type failure at a type
(`foo_bar`) outside both the registry and the chain, and handler dispatch
at a handled type (`speak`). -/
theorem C9_unregistered_dispatch_witness :
    get_executor_for_step "foo_bar" = "system_tools" ∧
    SystemTools_execute_step (fun _ => ⟨true, "ok", none⟩) "foo_bar" =
      ⟨false, "SystemTools 不支持的操作类型: '" ++ "foo_bar" ++
        "'。支持的类型: " ++
        String.intercalate ", " (supported_types.take 10) ++ "...",
        none⟩ ∧
    SystemTools_execute_step (fun _ => ⟨true, "ok", none⟩) "speak" =
      (fun (_ : String) => (⟨true, "ok", none⟩ : StepResult)) "speak" :=
  ⟨C9_unregistered_dispatch.1 "foo_bar" (by decide) (by decide),
   C9_unregistered_dispatch.2.1 (fun _ => ⟨true, "ok", none⟩) "foo_bar"
     (by decide) (by decide),
   C9_unregistered_dispatch.2.2 (fun _ => ⟨true, "ok", none⟩) "speak"
     (by decide)⟩

/-! ## Intent router (`intent_router.py`)

`IntentRouter.detect` strips the text, short-circuits on e-mail keywords,
scores the text against every registered intent cluster (best example per
intent, best intent by strict `>` from `-1.0`), penalizes an
`app_open`/`app_close` winner by `0.4` when the text carries a file
keyword or an absolute path, clamps at `0`, and matches against the
winner's `min_confidence` (default: the `threshold` parameter).  The
embedding model is an oracle: `scores` lists each intent's best-example
cosine score (a rational, standing in for the float) in registry order.
Lowercasing is ASCII (`Char.toLower`); the embeddings-not-ready and
encode-failure early exits are outside the model. -/

/-- Python `str.strip` whitespace (ASCII). -/
def pyWsCh (c : Char) : Bool :=
  decide (c = ' ') || decide (c = '\t') || decide (c = '\n') ||
  decide (c = '\r') || decide (c = Char.ofNat 11) ||
  decide (c = Char.ofNat 12)

/-- Python `text.strip()`. -/
def pyStrip (cs : List Char) : List Char :=
  ((cs.dropWhile pyWsCh).reverse.dropWhile pyWsCh).reverse

/-- The e-mail fast-path keywords of `detect`. -/
def emailKeywords : List String :=
  ["邮件", "email", "收件", "发件", "搜索邮件", "search_emails",
   "search emails"]

/-- `_generate_file_keywords`: extensions plus Chinese and English
file-related keywords. -/
def fileKeywords : List String :=
  [".docx", ".doc", ".xlsx", ".xls", ".pptx", ".ppt", ".pdf", ".txt",
   ".rtf", ".odt", ".ods",
   ".jpg", ".jpeg", ".png", ".gif", ".bmp", ".svg", ".webp", ".ico",
   ".tiff", ".heic",
   ".mp4", ".avi", ".mov", ".mkv", ".wmv", ".flv", ".webm", ".m4v",
   ".mp3", ".wav", ".flac", ".aac", ".ogg", ".m4a", ".wma",
   ".zip", ".rar", ".7z", ".tar", ".gz", ".bz2", ".xz",
   ".py", ".js", ".ts", ".java", ".cpp", ".c", ".h", ".html", ".css",
   ".json", ".xml", ".yaml", ".yml",
   ".exe", ".dmg", ".pkg", ".deb", ".rpm", ".apk", ".ipa",
   "文件", "文档", "图片", "照片", "视频", "音频", "压缩包", "下载", "桌面",
   "删除", "路径", "文件夹", "目录", "保存", "打开文件",
   "file", "document", "image", "photo", "video", "audio", "archive",
   "download", "desktop", "delete", "path", "folder", "directory", "save",
   "open file"]

/-- The directory names of `_check_absolute_path`'s Unix pattern. -/
def unixPathWords : List String :=
  ["Users", "home", "var", "etc", "tmp", "opt", "usr", "bin", "sbin",
   "lib", "mnt", "media", "root", "srv", "sys", "dev", "proc"]

/-- The case-insensitive Unix branch of `_check_absolute_path`:
`/(Users|home|...)/` somewhere in the text. -/
def hasUnixPath (text : List Char) : Bool :=
  unixPathWords.any (fun w =>
    containsSub ('/' :: (w.data.map Char.toLower ++ ['/']))
      (text.map Char.toLower))

/-- The Windows branch of `_check_absolute_path`: `[A-Z]:\\` (case
sensitive) somewhere in the text. -/
def hasWindowsPath : List Char → Bool
  | a :: b :: c :: r =>
    (decide ('A' ≤ a) && decide (a ≤ 'Z') && decide (b = ':') &&
      decide (c = '\\')) || hasWindowsPath (b :: c :: r)
  | _ => false

/-- `intent_metadata`, restricted to the `min_confidence` column. -/
def intent_metadata_minconf : List (String × ℚ) :=
  [("translate", 13/20), ("summarize", 13/20), ("polish", 13/20),
   ("screenshot", 3/5), ("volume_control", 3/5),
   ("brightness_control", 3/5), ("system_info", 3/5), ("app_open", 7/10),
   ("app_close", 4/5)]

/-- The best-intent loop: strict `>` against the running best, starting
from no intent at `-1.0`. -/
def bestLoop : List (String × ℚ) → Option String → ℚ → Option String × ℚ
  | [], bi, bs => (bi, bs)
  | (intent, s) :: rest, bi, bs =>
    if s > bs then bestLoop rest (some intent) s else bestLoop rest bi bs

/-- The returned match (`metadata` and the constant `is_fast_path=True`
omitted; `intent_type` is an `Option` because Python's `best_intent` can
remain `None`). -/
structure IntentMatch where
  intent_type : Option String
  confidence : ℚ

/-- `IntentRouter.detect` over the score oracle. -/
def detect (text : List Char) (scores : List (String × ℚ))
    (threshold : ℚ) : Option IntentMatch :=
  let stripped := pyStrip text
  if stripped = [] then none
  else if emailKeywords.any
      (fun kw => containsSub kw.data (stripped.map Char.toLower)) then none
  else
    match bestLoop scores none (-1) with
    | (bi, bs) =>
      let penalized :=
        if (bi = some "app_open" ∨ bi = some "app_close") ∧
            (fileKeywords.any
              (fun kw => containsSub kw.data (stripped.map Char.toLower)) ∨
             hasUnixPath stripped ∨ hasWindowsPath stripped) then
          bs - 2/5
        else bs
      let clamped := max 0 penalized
      let thr :=
        match bi with
        | some i =>
          match intent_metadata_minconf.lookup i with
          | some m => m
          | none => threshold
        | none => threshold
      if thr ≤ clamped then some ⟨bi, clamped⟩ else none

/-- The spec's adjusted score: the winner's best score, minus `0.4` when
the winner is `app_open`/`app_close` and the text carries a file keyword
or an absolute path (no clamping — the claim's wording). -/
def spec_adjusted_score (text : List Char) (intent : String) (bs : ℚ) :
    ℚ :=
  if (intent = "app_open" ∨ intent = "app_close") ∧
      (fileKeywords.any
        (fun kw => containsSub kw.data ((pyStrip text).map Char.toLower)) ∨
       hasUnixPath (pyStrip text) ∨ hasWindowsPath (pyStrip text)) then
    bs - 2/5
  else bs

/-- The spec's effective threshold: the winner's `min_confidence`, else
the `threshold` parameter. -/
def dynThreshold (intent : String) (threshold : ℚ) : ℚ :=
  match intent_metadata_minconf.lookup intent with
  | some m => m
  | none => threshold

/-- C5: on the semantic path (nonempty stripped text, no e-mail keyword)
with a winning intent and a positive effective threshold — every
`min_confidence` in the repository is `0.6`–`0.8` and the default is
`0.65` — `detect` returns a match exactly when the penalty-adjusted best
score reaches the winner's effective threshold, and the returned
confidence is exactly that adjusted score. -/
theorem C5_detect_threshold (text : List Char)
    (scores : List (String × ℚ)) (threshold : ℚ) (intent : String)
    (bs : ℚ) (hstrip : pyStrip text ≠ [])
    (hemail : emailKeywords.any
      (fun kw =>
        containsSub kw.data ((pyStrip text).map Char.toLower)) = false)
    (hbest : bestLoop scores none (-1) = (some intent, bs))
    (hpos : 0 < dynThreshold intent threshold) :
    (dynThreshold intent threshold ≤ spec_adjusted_score text intent bs →
      detect text scores threshold =
        some ⟨some intent, spec_adjusted_score text intent bs⟩) ∧
    (spec_adjusted_score text intent bs < dynThreshold intent threshold →
      detect text scores threshold = none) := by
  unfold detect
  dsimp only
  rw [if_neg hstrip]
  rw [if_neg (by simp [hemail])]
  rw [hbest]
  dsimp only
  simp only [Option.some.injEq]
  rw [show (if (intent = "app_open" ∨ intent = "app_close") ∧
        (fileKeywords.any (fun kw =>
          containsSub kw.data ((pyStrip text).map Char.toLower)) = true ∨
         hasUnixPath (pyStrip text) = true ∨
         hasWindowsPath (pyStrip text) = true) then bs - 2/5 else bs) =
      spec_adjusted_score text intent bs from by
    unfold spec_adjusted_score
    rfl]
  rw [show (match intent_metadata_minconf.lookup intent with
      | some m => m
      | none => threshold) = dynThreshold intent threshold from rfl]
  constructor
  · intro hge
    have h0 : (0 : ℚ) ≤ spec_adjusted_score text intent bs :=
      le_trans (le_of_lt hpos) hge
    rw [max_eq_right h0, if_pos hge]
  · intro hlt
    have hmax : max 0 (spec_adjusted_score text intent bs) <
        dynThreshold intent threshold := max_lt_iff.mpr ⟨hpos, hlt⟩
    rw [if_neg (not_le.mpr hmax)]

/-- C5 witness: a winner outside the metadata table uses the passed
threshold; with score `1` and threshold `1` the match fires with
confidence equal to the adjusted score. -/
theorem C5_detect_threshold_witness :
    detect ('h' :: ['i']) [("custom_intent", 1)] 1 =
      some ⟨some "custom_intent",
        spec_adjusted_score ('h' :: ['i']) "custom_intent" 1⟩ :=
  (C5_detect_threshold ('h' :: ['i']) [("custom_intent", 1)] 1
    "custom_intent" 1 (by decide) (by decide) (by decide)
    (by decide)).1 (by decide)

end DeskJarvis
